import Mathlib

/-!
Verification of the resolution-aware pine-tree node algorithm
(`src/pineNode.js` of Zhong-Lab-UCSD/pine-tree).

The JS source is embedded shallowly:

* JS numbers holding genomic coordinates, resolutions and the tree-wide
  scaling factors are modelled as `Int` (the source computes on IEEE
  doubles; all quantities handled by the algorithm are integral);
* `Math.floor` / `Math.ceil` / `Math.round` applied to a quotient `v / r`
  of integers become integer-division expressions (`Int` division is
  Euclidean, which agrees with `Math.floor` for positive divisors); bridge
  lemmas below relate them to `Int.floor` / `Int.ceil` on `ℚ`;
* `Math.floor(Math.log(x) / Math.log(sf))` (and the `Math.ceil`
  counterpart), always applied to exact quotients, become bounded-search
  integer logarithms with proved characterisations;
* the JS bucket values `null` / `false` / `DataNode` / `PineNode` become
  an explicit tagged union `PBucket`;
* in-place mutation becomes explicit state passing; thrown errors become
  `Except String`;
* unbounded `while` loops over the bucket arrays become recursion over the
  aligned `keys`/`values` lists, and recursion through child nodes is
  bounded by an explicit `fuel : Nat`; every theorem either fixes a
  concrete input or proves the supplied fuel sufficient.

Collaborator code that lives outside this repository
(`@givengine/give-tree`: the non-leaf shell, the `DataNode` leaf type, the
pluggable summary protocol, `ChromRegion`) is modelled from the
specification's description of those external interfaces; each such
definition carries a doc comment saying so.
-/

deriving instance DecidableEq for Except

namespace PineTree

/-- A raw interval contribution recorded inside an aggregate summary value. -/
structure RawSpan where
  chr : String
  spanStart : Int
  spanEnd : Int
deriving DecidableEq, Repr

/-- Modelled from the spec: the pluggable summary value (external protocol
`{extractFrom, mergeChild, mergeEntry, attachTo}`) instantiated as the list
of raw contributions folded into it, in fold order.  Only the plumbing of
summaries (presence, installation, folding order) matters to the claims,
never their algebra, so any concrete instance of the external protocol is
adequate. -/
abbrev Summary := List RawSpan

/-- Modelled from the spec: the external interval value
(`@givengine/chrom-region`): chr / start / end, an optional resolution tag,
and an optional embedded summary (the `._summary` slot read by
`SummaryCtor.extract`). -/
structure ChromRegion where
  chr : String
  start : Int
  «end» : Int
  resolution : Option Int
  _summary : Option Summary
deriving DecidableEq, Repr

/-- A value stored in the untyped `_summaryChromRegion` slot: the source
stores either a `ChromRegion` or (on the confirmed-empty path of `insert`)
a bare summary instance. -/
abbrev CRS := ChromRegion ⊕ Summary

/-- Modelled from the spec: the external leaf node (`DataNode`), the
finest-tier payload holding the raw intervals starting at `start` plus the
carry-over list of intervals that started earlier but extend into it. -/
structure DataNode where
  start : Int
  startList : List ChromRegion
  continuedList : List ChromRegion
deriving DecidableEq, Repr

/-- Modelled from the spec: a leaf always reports `hasData` (it exists only
where raw data has been loaded) and `resolution() == 1`. -/
def DataNode.hasData (_ : DataNode) : Bool := true

/-- A bucket of a node's `values` array: the source overloads
`null` (unknown) / `false` (confirmed empty) / a `DataNode` / a `PineNode`
in one slot. -/
inductive PBucket (α : Type) where
  | unknown
  | knownEmpty
  | leaf (d : DataNode)
  | branch (n : α)
deriving DecidableEq, Repr

/-- The `PineNode` of `src/pineNode.js`: root flag, range, reversed depth,
boundary keys, bucket values, the cached `_summary` and the cached
`_summaryChromRegion` wrapper. -/
inductive PineNode where
  | mk (isRoot : Bool) (start : Int) (stop : Int) (reverseDepth : Nat)
      (keys : List Int) (values : List (PBucket PineNode))
      (summ : Option Summary) (summCR : Option CRS)

def PineNode.isRoot : PineNode → Bool
  | .mk r _ _ _ _ _ _ _ => r

def PineNode.start : PineNode → Int
  | .mk _ s _ _ _ _ _ _ => s

/-- The node's `end` coordinate (`end` is a Lean keyword, hence `stop`). -/
def PineNode.stop : PineNode → Int
  | .mk _ _ e _ _ _ _ _ => e

def PineNode.reverseDepth : PineNode → Nat
  | .mk _ _ _ d _ _ _ _ => d

def PineNode.keys : PineNode → List Int
  | .mk _ _ _ _ ks _ _ _ => ks

def PineNode.values : PineNode → List (PBucket PineNode)
  | .mk _ _ _ _ _ vs _ _ => vs

/-- The `summary` getter: returns the cached `_summary`. -/
def PineNode.summary : PineNode → Option Summary
  | .mk _ _ _ _ _ _ sm _ => sm

/-- The `summaryChromRegion` getter: the cached wrapper, or `null`. -/
def PineNode.summaryChromRegion : PineNode → Option CRS
  | .mk _ _ _ _ _ _ _ cr => cr

def PineNode.withKV (n : PineNode) (ks : List Int)
    (vs : List (PBucket PineNode)) : PineNode :=
  match n with
  | .mk r s e d _ _ sm cr => .mk r s e d ks vs sm cr

def PineNode.withSummary (n : PineNode) (sm : Option Summary)
    (cr : Option CRS) : PineNode :=
  match n with
  | .mk r s e d ks vs _ _ => .mk r s e d ks vs sm cr

/-- Tree-wide parameters read through `this.tree`. -/
structure TreeParams where
  chr : String
  scalingFactor : Int
  leafScalingFactor : Int
  hasSummaryCtor : Bool
deriving DecidableEq, Repr

/-! ## Rounding primitives

The source applies JS `Math.floor` / `Math.ceil` / `Math.round` to exact
integer quotients `v / r` with `r > 0`.  `Int` division in Lean is
Euclidean division, which for a positive divisor is floor division, so: -/

/-- JS `Math.floor(v / r)` for integers with `r > 0`. -/
def jsFloorD (v r : Int) : Int := v / r

/-- JS `Math.ceil(v / r)` for integers with `r > 0`. -/
def jsCeilD (v r : Int) : Int := -(-v / r)

/-- JS `Math.round(v / r)` (half-up) for integers with `r > 0`:
`⌊v/r + 1/2⌋ = ⌊(2v + r) / (2r)⌋`. -/
def jsRoundD (v r : Int) : Int := (2 * v + r) / (2 * r)

/-- JS `a || b` on an optional number: 0 (and absence) are falsy. -/
def orDefault (a : Option Int) (b : Int) : Int :=
  match a with
  | some v => if v = 0 then b else v
  | none => b

/-! ## Exact integer logarithms

The source computes `Math.log(a) / Math.log(sf)` on doubles, always for an
exact quotient argument `a = num / den`, and floors or ceils the result;
the exact mathematical values are the greatest `k` with
`sf ^ k * den ≤ num` (respectively the least `k` with
`num ≤ sf ^ k * den`).  Both are computed by bounded search; the fuel
`num.natAbs + 1` is proved sufficient below. -/

def ilogFuel (num : Int) : Nat := num.natAbs + 1

/-- Upward search for the greatest `k` with `sf ^ k * den ≤ num`: advance
from `k` while the next power still fits (so only small powers are ever
computed). -/
def ilogFloorAux (sf num den : Int) : Nat → Nat → Nat
  | 0, k => k
  | f + 1, k =>
    if sf ^ (k + 1) * den ≤ num then ilogFloorAux sf num den f (k + 1) else k

/-- The exact value of `⌊log (num/den) / log sf⌋` for `sf ≥ 2`,
`num/den ≥ 1`. -/
def ilogFloor (sf num den : Int) : Nat :=
  ilogFloorAux sf num den (ilogFuel num) 0

/-- Least `k` with `num ≤ sf ^ k * den`, searched upward by bounded fuel. -/
def ilogCeilAux (sf num den : Int) : Nat → Nat → Nat
  | 0, k => k
  | f + 1, k =>
    if num ≤ sf ^ k * den then k else ilogCeilAux sf num den f (k + 1)

/-- The exact value of `⌈log (num/den) / log sf⌉` for `sf ≥ 2`,
`num/den ≥ 1`. -/
def ilogCeil (sf num den : Int) : Nat := ilogCeilAux sf num den (ilogFuel num) 0

/-- The upward search either exhausts the fuel with every tried power
fitting, or stops exactly at the boundary. -/
theorem ilogFloorAux_spec (sf num den : Int) :
    ∀ (f k : Nat), sf ^ k * den ≤ num →
      (ilogFloorAux sf num den f k = k + f ∧ sf ^ (k + f) * den ≤ num) ∨
      (sf ^ ilogFloorAux sf num den f k * den ≤ num ∧
        ¬ sf ^ (ilogFloorAux sf num den f k + 1) * den ≤ num ∧
        k ≤ ilogFloorAux sf num den f k) := by
  intro f
  induction f with
  | zero => intro k hk; exact Or.inl ⟨rfl, by simpa using hk⟩
  | succ f ih =>
    intro k hk
    unfold ilogFloorAux
    split
    · rename_i h
      rcases ih (k + 1) h with ⟨h1, h2⟩ | hr
      · left
        refine ⟨by rw [h1]; omega, ?_⟩
        have heq : k + 1 + f = k + (f + 1) := by omega
        rwa [heq] at h2
      · right
        exact ⟨hr.1, hr.2.1, by omega⟩
    · rename_i h
      right
      exact ⟨hk, h, le_refl k⟩

theorem ilogFuel_pow_gt {sf num den : Int} (hsf : 2 ≤ sf) (hden : 1 ≤ den) :
    num < sf ^ ilogFuel num * den := by
  have h2 : (num : Int) < 2 ^ ilogFuel num := by
    have hn : num ≤ (num.natAbs : Int) := Int.le_natAbs
    have hlt : (num.natAbs : Int) < 2 ^ ilogFuel num := by
      have := Nat.lt_two_pow (num.natAbs)
      have h1 : (num.natAbs : Int) < (2 ^ num.natAbs : Nat) := by
        exact_mod_cast this
      have h2' : ((2 ^ num.natAbs : Nat) : Int) ≤ 2 ^ ilogFuel num := by
        push_cast
        have : (2:Int) ^ num.natAbs ≤ 2 ^ (num.natAbs + 1) := by
          apply pow_le_pow_right₀ (by norm_num)
          omega
        simpa [ilogFuel] using this
      omega
    omega
  have hpow : (2:Int) ^ ilogFuel num ≤ sf ^ ilogFuel num := by
    apply pow_le_pow_left₀ (by norm_num) hsf
  have hmul : sf ^ ilogFuel num ≤ sf ^ ilogFuel num * den := by
    have hp : (0:Int) < sf ^ ilogFuel num := by positivity
    nlinarith
  omega

theorem ilogFloor_le {sf num den : Int} (hbase : den ≤ num) :
    sf ^ ilogFloor sf num den * den ≤ num := by
  have h0 : sf ^ 0 * den ≤ num := by simpa using hbase
  unfold ilogFloor
  rcases ilogFloorAux_spec sf num den (ilogFuel num) 0 h0 with ⟨h1, h2⟩ | hr
  · rw [h1]
    simpa using h2
  · exact hr.1

theorem ilogFloor_greatest {sf num den : Int} (hsf : 2 ≤ sf) (hden : 1 ≤ den)
    (hbase : den ≤ num) :
    ∀ k, sf ^ k * den ≤ num → k ≤ ilogFloor sf num den := by
  intro j hj
  have h0 : sf ^ 0 * den ≤ num := by simpa using hbase
  unfold ilogFloor
  rcases ilogFloorAux_spec sf num den (ilogFuel num) 0 h0 with ⟨_, h2⟩ | hr
  · exfalso
    have hgt := @ilogFuel_pow_gt sf num den hsf hden
    simp only [Nat.zero_add] at h2
    exact absurd h2 (not_le.mpr hgt)
  · by_contra hgt
    push_neg at hgt
    have hmono : sf ^ (ilogFloorAux sf num den (ilogFuel num) 0 + 1) ≤ sf ^ j :=
      pow_le_pow_right₀ (by omega) (by omega)
    have hle : sf ^ (ilogFloorAux sf num den (ilogFuel num) 0 + 1) * den ≤
        sf ^ j * den :=
      mul_le_mul_of_nonneg_right hmono (by omega)
    exact hr.2.1 (le_trans hle hj)

/-! ## ResolutionModel (`_getResolutionAtDepth`, `resolution`,
`resolutionEnough`, `getChildResolution`, `_getClosestResolution`,
`fitResolution`) -/

/-- Source: `parseInt(Math.floor(this.tree.scalingFactor ** revDepth *
this.tree.leafScalingFactor))` — `Math.floor` and `parseInt` are identities
on the integer product. -/
def _getResolutionAtDepth (t : TreeParams) (revDepth : Nat) : Int :=
  t.scalingFactor ^ revDepth * t.leafScalingFactor

/-- The `resolution` getter of a node. -/
def PineNode.resolution (t : TreeParams) (n : PineNode) : Int :=
  _getResolutionAtDepth t n.reverseDepth

/-- Source: an omitted / non-number `resolution` argument defaults to 1;
returns `this.resolution <= resolution`. -/
def resolutionEnough (t : TreeParams) (n : PineNode) (res : Option Int) : Bool :=
  decide (n.resolution t ≤ res.getD 1)

/-- Source `getChildResolution(index)`: specialised resolution of bucket
`index` when it is a live node (a leaf reports 1), else the generalised
child resolution `_getResolutionAtDepth(reverseDepth - 1)`. -/
def getChildResolution (t : TreeParams) (n : PineNode) (idx : Option Nat) : Int :=
  let generalized : Int :=
    if n.reverseDepth > 0 then _getResolutionAtDepth t (n.reverseDepth - 1) else 1
  match idx with
  | none => generalized
  | some i =>
    if n.reverseDepth = 0 then 1
    else
      match n.values.getD i .unknown with
      | .knownEmpty => 1
      | .branch c => if c.resolution t ≠ 0 then c.resolution t else generalized
      | .leaf _ => 1
      | .unknown => generalized

def childResolutionEnough (t : TreeParams) (n : PineNode) (res : Option Int)
    (idx : Option Nat) : Bool :=
  decide (getChildResolution t n idx ≤ res.getD 1)

/-- Source `_getClosestResolution(requiredRes)` for the rational argument
`requiredRes = reqNum / reqDen` (with `reqDen > 0`; the call sites pass the
requested resolution divided by the buffering ratio):
`parseInt(Math.floor(sf ** Math.floor(log(req / lsf) / log sf) * lsf))`
when `req ≥ lsf` — i.e. `lsf * reqDen ≤ reqNum` — else 1.

This embedding idealises the floored logarithm quotient — which the source
computes on binary64 doubles with the implementation-approximated
`Math.log` — as the exact integer logarithm `ilogFloor`.  The two differ
at exact ladder points, where the host quotient falls one ulp below the
integer (`Math.log(1000) / Math.log(10) = 2.9999999999999996`, likewise at
ratios `10 ^ 6` and `10 ^ 9`) and the program returns one ladder step less
than the exact floor would; the divergence is derived from the pinned host
values in the C5 section below.  The cache queries use this definition
only for the fetch-resolution tag of reported gaps, where the theorems
depend on its positivity alone, never on which ladder value it returns. -/
def _getClosestResolution (t : TreeParams) (reqNum reqDen : Int) : Int :=
  if t.leafScalingFactor * reqDen ≤ reqNum then
    t.scalingFactor ^
      (ilogFloor t.scalingFactor reqNum (reqDen * t.leafScalingFactor)) *
      t.leafScalingFactor
  else 1

/-- Source static `fitResolution(value, resolution, roundingFunc)`:
`roundingFunc = roundingFunc || Math.round;
 parseInt(roundingFunc(value / resolution) * resolution)`.
The rounding function consumes the exact quotient `value / resolution`;
it is modelled as a function of the (value, resolution) pair, with
`Math.floor` ↦ `jsFloorD`, `Math.ceil` ↦ `jsCeilD`,
`Math.round` ↦ `jsRoundD`. -/
def fitResolution (value resolution : Int)
    (roundingFunc : Option (Int → Int → Int)) : Int :=
  (roundingFunc.getD jsRoundD) value resolution * resolution

/-! ## SummaryCache (`hasData`, `childHasData`, `updateSummary`) -/

/-- The `hasData` getter: `this.summary !== null`. -/
def PineNode.hasData (n : PineNode) : Bool := n.summary.isSome

/-- JS truthiness of a bucket value (`null` and `false` are falsy). -/
def bucketTruthy : PBucket PineNode → Bool
  | .unknown => false
  | .knownEmpty => false
  | .leaf _ => true
  | .branch _ => true

/-- Source `childHasData(index)` evaluated on the bucket value:
`values[index] === false || (values[index] !== null && values[index].hasData)`. -/
def childHasDataB : PBucket PineNode → Bool
  | .knownEmpty => true
  | .unknown => false
  | .leaf d => d.hasData
  | .branch c => c.hasData

def childHasData (n : PineNode) (i : Nat) : Bool :=
  childHasDataB (n.values.getD i .unknown)

/-- Modelled from the spec: `SummaryCtor.extract` of the external summary
protocol — reads the summary embedded in a `ChromRegion`, and passes a bare
summary instance through (the confirmed-empty path of `insert` feeds
`new SummaryCtor()` directly into `updateSummary`). -/
def summaryExtract : Option CRS → Option Summary
  | none => none
  | some (.inl cr) => cr._summary
  | some (.inr s) => some s

def toRawSpan (e : ChromRegion) : RawSpan := ⟨e.chr, e.start, e.«end»⟩

/-- The `values.every` fold of `updateSummary`, left to right:
`false` buckets contribute nothing, a `null` bucket (or, at
`reverseDepth > 0`, a child whose own summary is `null`) aborts, a child at
`reverseDepth > 0` contributes its cached summary (`addSummary`), a leaf at
`reverseDepth == 0` contributes its raw start-list entries
(`traverse(null, addDataFromChromEntry, null, false, {notFirstCall:true})`,
which skips the carry-over list).  The two cross cases (branch at depth 0,
leaf at positive depth) make the source throw or fold garbage; they are
unreachable on well-formed trees and modelled as an abort. -/
def summaryFold (rd : Nat) : Summary → List (PBucket PineNode) → Option Summary
  | acc, [] => some acc
  | acc, b :: rest =>
    match b with
    | .knownEmpty => summaryFold rd acc rest
    | .unknown => none
    | .branch c =>
      if rd > 0 then
        match c.summary with
        | none => none
        | some cs => summaryFold rd (acc ++ cs) rest
      else none
    | .leaf d =>
      if rd = 0 then summaryFold rd (acc ++ d.startList.map toRawSpan) rest
      else none

/-- Source `updateSummary(chromEntry)`: install a valid precomputed summary
directly (caching `chromEntry` as the wrapper), otherwise — only when the
cached summary is absent — recompute bottom-up from the buckets; on success
install the new summary and an `attach`ed wrapper spanning this node, on
abort leave the summary absent and delete the wrapper. -/
def updateSummary (t : TreeParams) (n : PineNode) (chromEntry : Option CRS) :
    PineNode :=
  if t.hasSummaryCtor then
    match summaryExtract chromEntry with
    | some s => n.withSummary (some s) chromEntry
    | none =>
      if n.summary = none then
        match summaryFold n.reverseDepth [] n.values with
        | some s =>
          n.withSummary (some s)
            (some (.inl ⟨t.chr, n.start, n.stop, none, some s⟩))
        | none => n.withSummary none none
      else n
  else n

/-! ## External tree-shell primitives, modelled from the spec (§6) -/

/-- Modelled from the spec: `truncateChrRange` of the non-leaf shell clips
the query range to this node's own range (on a clone; it throws on a
disjoint range — "should never happen"). -/
def truncateChrRange (n : PineNode) (cr : ChromRegion) :
    Except String ChromRegion :=
  if cr.start < n.stop ∧ cr.«end» > n.start then
    .ok { cr with start := max cr.start n.start, «end» := min cr.«end» n.stop }
  else .error "chrRange does not overlap this node"

/-- Modelled from the spec: `splitChildAt(index, coordinate, fillValue?)` —
subdivide bucket `index` at `coordinate`; the former half keeps the payload,
the latter half gets `fillValue` when given, else the same payload. -/
def PineNode.splitChild (n : PineNode) (i : Nat) (newKey : Int)
    (newLatter : Option (PBucket PineNode)) : PineNode :=
  n.withKV (n.keys.insertIdx (i + 1) newKey)
    (n.values.insertIdx (i + 1) (newLatter.getD (n.values.getD i .unknown)))

/-- Equal empty sentinels (`false`/`false` or `null`/`null`) may coalesce. -/
def compatEmpty : PBucket PineNode → PBucket PineNode → Bool
  | .knownEmpty, .knownEmpty => true
  | .unknown, .unknown => true
  | _, _ => false

/-- Modelled from the spec: `mergeChild(index, forward, force)` — coalesce
bucket `index` with its previous neighbour when both are equal empty
sentinels, reporting `true` (the caller then steps its cursor back one
bucket); with `forward` also try the next neighbour.  The call sites in
`pineNode.js` never reach the forward merge with a `true` report. -/
def _mergeChild (n : PineNode) (i : Nat) (mergeNext : Bool) (_force : Bool) :
    PineNode × Bool :=
  if 0 < i ∧ i < n.values.length ∧
      compatEmpty (n.values.getD (i - 1) .unknown) (n.values.getD i .unknown) then
    (n.withKV (n.keys.eraseIdx i) (n.values.eraseIdx i), true)
  else if mergeNext ∧ i + 1 < n.values.length ∧
      compatEmpty (n.values.getD i .unknown) (n.values.getD (i + 1) .unknown) then
    (n.withKV (n.keys.eraseIdx (i + 1)) (n.values.eraseIdx (i + 1)), false)
  else (n, false)

/-- Modelled from the spec: the shell's `clear(convertTo)` resets the bucket
arrays to a single `convertTo` bucket spanning the whole node.  The
`_summary` / `_summaryChromRegion` slots are `PineNode`-specific fields the
generic shell does not know about, so they survive a `clear`. -/
def PineNode.clear (n : PineNode) (convertTo : PBucket PineNode) : PineNode :=
  n.withKV [n.start, n.stop] [convertTo]

def PineNode.firstChild (n : PineNode) : PBucket PineNode :=
  n.values.getD 0 .unknown

/-- Modelled from the spec: the shell's emptiness notion — a single trivial
bucket (cf. the validity test in `remove`:
`values.length > 1 || (firstChild !== null && firstChild !== false)`). -/
def superIsEmpty (n : PineNode) : Bool :=
  n.values.length ≤ 1 && !(bucketTruthy n.firstChild)

/-- Source `isEmpty` getter override: `!this.hasData && super.isEmpty`. -/
def PineNode.isEmpty (n : PineNode) : Bool :=
  !n.hasData && superIsEmpty n

/-- Modelled from the spec: `restructure()` of the non-self-balancing pine
shell reports node validity — the node itself when still valid, a collapse
sentinel (falsy) when it has withered to an empty shell. -/
def restructure (n : PineNode) : Option PineNode :=
  if n.isEmpty then none else some n

/-- Modelled from the spec: `_compareData` value-equality used by
`remove(exactMatch)` — the node's cached wrapper against the target. -/
def _compareData (x : ChromRegion) (n : PineNode) : Bool :=
  match n.summaryChromRegion with
  | some (.inl cr) => cr = x
  | _ => false

/-- Modelled from the spec / source comment: the `PineNode` constructor —
`keys`/`values` initialised by the shell to one unknown bucket over
`[start, end)`, and `reverseDepth` recomputed from the span as
`ceil((log(end - start) - log(leafScalingFactor)) / log(scalingFactor))`
(0 when the span fits one leaf cell). -/
def mkPineNode (t : TreeParams) (isRoot : Bool) (s e : Int) : PineNode :=
  let rd : Nat :=
    if e - s ≤ t.leafScalingFactor then 0
    else ilogCeil t.scalingFactor (e - s) t.leafScalingFactor
  .mk isRoot s e rd [s, e] [.unknown] none none

/-! ## CacheQuery (`getUncachedRange`, `hasUncachedRange`)

The two index-cursor `while` loops of the source are modelled as recursion
over the aligned `keys`/`values` lists: the leading skip loop
(`while keys[currIndex+1] <= chrRange.start`) as `skipBuckets`, the
processing loop (`while keys[currIndex] < chrRange.end`) as `hurLoop` /
`gurLoop`.  Descent into child nodes is handed to the loop as the function
`recur`, instantiated with the node-level walk at one less fuel. -/

/-- Query-time shared properties (`props.resolution`, `props.bufferingRatio`). -/
structure QueryProps where
  resolution : Option Int
  bufferingRatio : Option Int
deriving DecidableEq, Repr

/-- Source: `let resolution = chrRange.resolution || props.resolution || 1`. -/
def effResolution (cr : ChromRegion) (pr : QueryProps) : Int :=
  orDefault cr.resolution (orDefault pr.resolution 1)

/-- Source `getChildResolution` evaluated on the bucket at the cursor
(the generalised fall-through reads the parent's `reverseDepth`). -/
def childResolutionOfBucket (t : TreeParams) (rd : Nat)
    (b : PBucket PineNode) : Int :=
  let generalized : Int :=
    if rd > 0 then _getResolutionAtDepth t (rd - 1) else 1
  if rd = 0 then 1
  else
    match b with
    | .knownEmpty => 1
    | .branch c => if c.resolution t ≠ 0 then c.resolution t else generalized
    | .leaf _ => 1
    | .unknown => generalized

theorem getChildResolution_eq_bucket (t : TreeParams) (n : PineNode) (i : Nat) :
    getChildResolution t n (some i) =
      childResolutionOfBucket t n.reverseDepth (n.values.getD i .unknown) := by
  unfold getChildResolution childResolutionOfBucket
  rfl

/-- The skip loop `while (currIndex < values.length &&
keys[currIndex+1] <= chrRange.start) currIndex++`, returning the remaining
aligned suffixes. -/
def skipBuckets (s : Int) :
    List Int → List (PBucket PineNode) →
    List Int × List (PBucket PineNode)
  | k0 :: k1 :: ks, v :: vs =>
    if k1 ≤ s then skipBuckets s (k1 :: ks) vs else (k0 :: k1 :: ks, v :: vs)
  | ks, vs => (ks, vs)

/-- The processing loop of `hasUncachedRange`: a bucket with a live child of
insufficient resolution recurses (`recur`, a leaf — being external and
always loaded — reports nothing); otherwise a bucket without data reports
`true`. -/
def hurLoop (t : TreeParams) (rd : Nat) (res : Int) (cr : ChromRegion)
    (recur : PineNode → Bool) :
    List Int → List (PBucket PineNode) → Bool
  | k0 :: k1 :: ks, v :: vs =>
    if k0 < cr.«end» then
      (if bucketTruthy v && !(childResolutionOfBucket t rd v ≤ res) then
        match v with
        | .branch c => recur c
        | _ => false
      else !(childHasDataB v)) ||
      hurLoop t rd res cr recur (k1 :: ks) vs
    else false
  | _, _ => false

/-- Source `hasUncachedRange(chrRange, props)`. -/
def hasUncachedRange (t : TreeParams) :
    Nat → PineNode → ChromRegion → QueryProps → Bool
  | 0, _, _, _ => false
  | fuel + 1, n, cr, pr =>
    let res := effResolution cr pr
    let (ks, vs) := skipBuckets cr.start n.keys n.values
    hurLoop t n.reverseDepth res cr
      (fun c => hasUncachedRange t fuel c cr pr) ks vs

/-- The push-or-extend accumulation of `getUncachedRange`: extend the last
result entry in place when contiguous at the same tagged resolution, else
push a fresh `ChromRegion`. -/
def appendGap (acc : List ChromRegion) (chr : String) (rs re clos : Int) :
    List ChromRegion :=
  match acc.getLast? with
  | some lastE =>
    if lastE.resolution = some clos ∧ lastE.«end» = rs then
      acc.dropLast ++ [{ lastE with «end» := re }]
    else acc ++ [⟨chr, rs, re, some clos, none⟩]
  | none => [⟨chr, rs, re, some clos, none⟩]

/-- The processing loop of `getUncachedRange`: recurse into children of
insufficient resolution, and append a grid-aligned missing range for each
bucket without data. -/
def gurLoop (t : TreeParams) (rd : Nat) (res : Int) (br : Int)
    (cr : ChromRegion) (recur : PineNode → List ChromRegion → List ChromRegion) :
    List Int → List (PBucket PineNode) → List ChromRegion →
    List ChromRegion
  | k0 :: k1 :: ks, v :: vs, acc =>
    if k0 < cr.«end» then
      let acc' :=
        if bucketTruthy v && !(childResolutionOfBucket t rd v ≤ res) then
          match v with
          | .branch c => recur c acc
          | _ => acc
        else if !(childHasDataB v) then
          let closRes := _getClosestResolution t res br
          let retrieveStart :=
            max k0 (fitResolution cr.start closRes (some jsFloorD))
          let retrieveEnd :=
            min k1 (fitResolution cr.«end» closRes (some jsCeilD))
          appendGap acc cr.chr retrieveStart retrieveEnd closRes
        else acc
      gurLoop t rd res br cr recur (k1 :: ks) vs acc'
    else acc
  | _, _, acc => acc

/-- Source `getUncachedRange(chrRange, props)`: clamps
`props.bufferingRatio` to ≥ 1 (with a diagnostic), then walks the buckets
intersecting `chrRange`; `acc` is the shared `props._result`. -/
def getUncachedRange (t : TreeParams) :
    Nat → PineNode → ChromRegion → QueryProps → List ChromRegion →
    List ChromRegion
  | 0, _, _, _, acc => acc
  | fuel + 1, n, cr, pr, acc =>
    let res := effResolution cr pr
    let br0 := orDefault pr.bufferingRatio 1
    let br := if br0 < 1 then 1 else br0
    let (ks, vs) := skipBuckets cr.start n.keys n.values
    gurLoop t n.reverseDepth res br cr
      (fun c a => getUncachedRange t fuel c cr pr a) ks vs acc

/-! ## TraversalEngine (`traverse`) -/

/-- Traversal context: the external `callback` / `filter` functions (their
boolean interpretation), `breakOnFalse`, and `props.resolution`. -/
structure TravCtx where
  callback : CRS → Bool
  filter : Option (CRS → Bool)
  breakOnFalse : Bool
  resolution : Option Int

/-- Modelled from the spec: the shell's static `_callFuncOnDataEntry` —
apply the filter; when it passes, hand the entry to the callback and report
`false` exactly when `breakOnFalse` is set and the callback returned a
falsy value.  Returns the entries handed to the callback together with the
continue verdict.  (An absent entry — the JS `null` wrapper of a node
without data — is never consumed under the `hasData` guard.) -/
def _callFuncOnDataEntry (ctx : TravCtx) (entry : Option CRS) :
    List CRS × Bool :=
  match entry with
  | none => ([], true)
  | some e =>
    match ctx.filter with
    | some f =>
      if f e then ([e], !(ctx.breakOnFalse && !ctx.callback e)) else ([], true)
    | none => ([e], !(ctx.breakOnFalse && !ctx.callback e))

/-- Early-stopping fold of `_callFuncOnDataEntry` over raw entries. -/
def travFold (ctx : TravCtx) : List ChromRegion → List CRS × Bool
  | [] => ([], true)
  | e :: rest =>
    let (em, cont) := _callFuncOnDataEntry ctx (some (.inl e))
    if cont then
      let (ems, c2) := travFold ctx rest
      (em ++ ems, c2)
    else (em, false)

/-- Modelled from the spec: the external leaf's traverse-compatible walk —
the carry-over list first (only on the first call of a series, tracked via
`props.notFirstCall`), then the raw entries starting in the cell, each
clipped to entries overlapping the query range when one is given.  Returns
emissions, the continue verdict and the updated `notFirstCall`. -/
def DataNode.traverse (d : DataNode) (ctx : TravCtx)
    (cro : Option ChromRegion) (notFirstCall : Bool) :
    List CRS × Bool × Bool :=
  let pool := (if notFirstCall then [] else d.continuedList) ++ d.startList
  let pool := match cro with
    | some cr => pool.filter (fun e => e.start < cr.«end» && e.«end» > cr.start)
    | none => pool
  let (em, cont) := travFold ctx pool
  (em, cont, true)

/-- Modelled from the spec: the shell's generic depth-first walk — visit
each data-bearing bucket intersecting the range (`recur` descends into a
child node), honoring `breakOnFalse`. -/
def superWalk (cr : ChromRegion) (ctx : TravCtx)
    (recur : PineNode → Bool → Except String (List CRS × Option Bool × Bool)) :
    List Int → List (PBucket PineNode) → Bool →
    Except String (List CRS × Bool × Bool)
  | k0 :: k1 :: ks, v :: vs, nfc =>
    if k0 < cr.«end» ∧ k1 > cr.start then
      match v with
      | .branch c =>
        match recur c nfc with
        | .error s => .error s
        | .ok (em, r, nfc') =>
          if ctx.breakOnFalse && r = some false then .ok (em, false, nfc')
          else
            match superWalk cr ctx recur (k1 :: ks) vs nfc' with
            | .error s => .error s
            | .ok (ems, c2, nfc'') => .ok (em ++ ems, c2, nfc'')
      | .leaf d =>
        let (em, cont, nfc') := d.traverse ctx (some cr) nfc
        if cont then
          match superWalk cr ctx recur (k1 :: ks) vs nfc' with
          | .error s => .error s
          | .ok (ems, c2, nfc'') => .ok (em ++ ems, c2, nfc'')
        else .ok (em, false, nfc')
      | _ => superWalk cr ctx recur (k1 :: ks) vs nfc
    else superWalk cr ctx recur (k1 :: ks) vs nfc
  | _, _, nfc => .ok ([], true, nfc)

/-- Source `traverse(chrRange, callback, filter, breakOnFalse, props)`:
throw on a missing range; do nothing on a disjoint range (the source
returns `undefined`, modelled as `none`); short-circuit through the cached
summary wrapper when this node's resolution is enough and it has data; else
fall through to the shell's generic per-bucket walk. -/
def PineNode.traverse (t : TreeParams) :
    Nat → PineNode → Option ChromRegion → TravCtx → Bool →
    Except String (List CRS × Option Bool × Bool)
  | 0, _, _, _, _ => .error "fuel exhausted"
  | fuel + 1, n, cro, ctx, nfc =>
    match cro with
    | none => .error "null is not a valid chrRegion."
    | some cr =>
      let res := orDefault cr.resolution (orDefault ctx.resolution 1)
      if n.start < cr.«end» ∧ n.stop > cr.start then
        if resolutionEnough t n (some res) && n.hasData then
          let (em, c) := _callFuncOnDataEntry ctx n.summaryChromRegion
          .ok (em, some c, nfc)
        else
          match superWalk cr ctx
              (fun c nfc' => PineNode.traverse t fuel c (some cr) ctx nfc')
              n.keys n.values nfc with
          | .ok (em, c, nfc') => .ok (em, some c, nfc')
          | .error s => .error s
      else .ok ([], none, nfc)

/-! ## InsertionEngine (`insert`, `_addNonLeafRecords`, `_addLeafRecords`)

The shared mutable context `props` (continuation list, queue cursor,
callback) and the in-place consumption of the `data` queue are threaded
explicitly through `InsState`; `calls` logs the entries handed to
`props.callback`. -/

structure InsProps where
  continuedList : Option (List ChromRegion)
  callbackPresent : Bool
  resolution : Option Int
  leafCtorValid : Bool
  dataIndex : Option Nat
deriving DecidableEq, Repr

structure InsState where
  data : List ChromRegion
  props : InsProps
  calls : List ChromRegion
deriving DecidableEq, Repr

def PineNode.setValue (n : PineNode) (i : Nat) (b : PBucket PineNode) :
    PineNode :=
  n.withKV n.keys (n.values.set i b)

/-- JS `this.keys[i] < b` (false when the index is out of bounds). -/
def keyLT (ks : List Int) (i : Nat) (b : Int) : Bool :=
  match ks.get? i with
  | some k => decide (k < b)
  | none => false

/-- JS `this.keys[i] > b` (false when the index is out of bounds). -/
def keyGT (ks : List Int) (i : Nat) (b : Int) : Bool :=
  match ks.get? i with
  | some k => decide (k > b)
  | none => false

/-- The cursor-advance loop `while (keys[currIndex + 1] <= bound)
currIndex++` (an out-of-bounds read compares false and stops the loop). -/
def advanceIdx (ks : List Int) (bound : Int) : Nat → Nat → Nat
  | i, 0 => i
  | i, f + 1 =>
    match ks.get? (i + 1) with
    | some k => if k ≤ bound then advanceIdx ks bound (i + 1) f else i
    | none => i

/-- Modelled from the spec: the shell's static `_traverseData` — advance the
queue cursor over the entries with `start` before `bound`, handing each to
the optional callback. -/
def _traverseData (data : List ChromRegion) (di : Nat) (bound : Int)
    (callbackPresent : Bool) (calls : List ChromRegion) :
    Nat × List ChromRegion :=
  let passed := (data.drop di).takeWhile (fun e => decide (e.start < bound))
  (di + passed.length, calls ++ (if callbackPresent then passed else []))

/-- Modelled from the spec: the external leaf's `insert(dataQueue, range,
props)` — consume the queue entries starting exactly at this cell (firing
the optional callback on each) into the raw list, and adopt the entries of
`props.continuedList` that extend past this cell's start as the carry-over
list. -/
def DataNode.insert (d : DataNode) (st : InsState) : DataNode × InsState :=
  let di := st.props.dataIndex.getD 0
  let newEntries :=
    (st.data.drop di).takeWhile (fun e => decide (e.start = d.start))
  let d' : DataNode :=
    { d with
      startList := d.startList ++ newEntries,
      continuedList :=
        (st.props.continuedList.getD []).filter
          (fun e => decide (e.«end» > d.start)) }
  let st' : InsState :=
    { st with
      props := { st.props with dataIndex := some (di + newEntries.length) },
      calls := st.calls ++ (if st.props.callbackPresent then newEntries else []) }
  (d', st')

/-- The tail common to all `insert` branches:
`this.updateSummary(); return this.restructure()`. -/
def finishInsert (t : TreeParams) (n : PineNode) (st : InsState) :
    Except String (PineNode × Bool × InsState) :=
  let n2 := updateSummary t n none
  .ok (n2, (restructure n2).isSome, st)

/-- Source `_addNonLeafRecords`, one iteration of
`while (chrRange.start < chrRange.end)` per fuel step; `cr` carries the
fixed `chrRange.end` / `chr` / `resolution`, `crStart` the advancing
`chrRange.start`; `insertChild` is the recursive `child.insert`. -/
def addNonLeafLoop (t : TreeParams)
    (insertChild : PineNode → ChromRegion → InsState →
      Except String (PineNode × Bool × InsState)) :
    Nat → PineNode → Nat → Int → Int → ChromRegion → InsState →
    Except String (PineNode × InsState)
  | 0, _, _, _, _, _, _ => .error "fuel exhausted"
  | fuel + 1, n, i, childRes, crStart, cr, st =>
    if crStart < cr.«end» then
      let newRangeStart := fitResolution crStart childRes (some jsFloorD)
      let newRangeEnd :=
        min n.stop
          (min (fitResolution cr.«end» childRes (some jsCeilD))
            (newRangeStart + childRes))
      let i := advanceIdx n.keys newRangeStart i n.keys.length
      let (n, i) :=
        if keyLT n.keys i newRangeStart then
          (n.splitChild i newRangeStart none, i + 1)
        else (n, i)
      let n :=
        if keyGT n.keys (i + 1) newRangeEnd then
          n.splitChild i newRangeEnd none
        else n
      let live :=
        (match st.data.head? with
         | some e => decide (e.start < newRangeEnd)
         | none => false) ||
        (match st.props.continuedList with
         | some l => l.any (fun e => decide (e.«end» > newRangeStart))
         | none => false) ||
        (decide (crStart > newRangeStart) || decide (cr.«end» < newRangeEnd))
      let step := fun (fix : Bool) (n : PineNode) (st' : InsState) =>
        let (n, i) :=
          if fix then
            let n := n.setValue i .knownEmpty
            let (n2, merged) := _mergeChild n i true false
            (n2, if merged then i - 1 else i)
          else (n, i)
        addNonLeafLoop t insertChild fuel n (i + 1) childRes
          (min newRangeEnd cr.«end») cr st'
      if live then
        match n.values.getD i .unknown with
        | .leaf _ =>
          -- the source would call `DataNode.insert` here; unreachable at
          -- positive depth on well-formed trees
          .error "leaf bucket at non-leaf depth"
        | b =>
          let child :=
            match b with
            | .branch c => c
            | _ => mkPineNode t false newRangeStart newRangeEnd
          match insertChild child { cr with start := crStart } st with
          | .error s => .error s
          | .ok (child', verdict, st') =>
            let n := n.setValue i (.branch child')
            step (!verdict) n st'
      else step true n st
    else .ok (n, st)

/-- The main loop of `_addLeafRecords`: per cell, fold the passed entries
into the continuation list, then either materialise a leaf at an exact
start, or fill with `false` (or a carry-over-only leaf) and coalesce. -/
def addLeafLoop (t : TreeParams) :
    Nat → PineNode → Nat → Int → ChromRegion → InsState → Nat →
    Except String (PineNode × InsState × Nat)
  | 0, _, _, _, _, _, _ => .error "fuel exhausted"
  | fuel + 1, n, i, crStart, cr, st, prevDI0 =>
    if crStart < cr.«end» then
      let i := advanceIdx n.keys crStart i n.keys.length
      let prevDI := st.props.dataIndex.getD 0
      let (di', calls') :=
        _traverseData st.data prevDI crStart st.props.callbackPresent st.calls
      let cl :=
        ((st.props.continuedList.getD []) ++
          ((st.data.drop prevDI).take (di' - prevDI))).filter
          (fun e => decide (e.«end» > crStart))
      let st := { st with
        props := { st.props with
          dataIndex := some di',
          continuedList := some cl },
        calls := calls' }
      let (n, i) :=
        if keyLT n.keys i crStart then
          (n.splitChild i crStart (some .knownEmpty), i + 1)
        else (n, i)
      let atStart :=
        match st.data.get? di', n.keys.get? i with
        | some e, some k => decide (e.start = k)
        | _, _ => false
      let (n, i, st) :=
        if atStart then
          let d0 : DataNode :=
            { start := n.keys.getD i 0, startList := [], continuedList := [] }
          let (d', st') := d0.insert st
          (n.setValue i (.leaf d'), i, st')
        else if keyLT n.keys i cr.«end» then
          let clNow := st.props.continuedList.getD []
          let bucket :=
            if clNow.length ≤ 0 then PBucket.knownEmpty
            else PBucket.leaf
              { start := n.keys.getD i 0, startList := [],
                continuedList := clNow }
          let n := n.setValue i bucket
          let (n2, merged) := _mergeChild n i false false
          (n2, if merged then i - 1 else i, st)
        else (n, i, st)
      let di2 := st.props.dataIndex.getD 0
      let crStart' :=
        match st.data.get? di2 with
        | some e => if e.start < cr.«end» then e.start else cr.«end»
        | none => cr.«end»
      addLeafLoop t fuel n i crStart' cr st prevDI
    else .ok (n, st, prevDI0)

/-- Source `_addLeafRecords` around its main loop: initialise
`props.dataIndex` / `props.continuedList`, check the leaf constructor,
pre-split the boundary buckets, then run the loop and do the final
continuation-list pass and queue consumption. -/
def addLeafRecords (t : TreeParams) (fuel : Nat) (n : PineNode)
    (cr : ChromRegion) (st : InsState) :
    Except String (PineNode × InsState) :=
  let st := { st with props := { st.props with
    dataIndex := some 0,
    continuedList := some (st.props.continuedList.getD []) } }
  if !st.props.leafCtorValid then
    .error "LeafNodeCtor is not a constructor for a tree node!"
  else
    let i := advanceIdx n.keys cr.start 0 n.keys.length
    let (n, i) :=
      if keyLT n.keys i cr.start then (n.splitChild i cr.start none, i + 1)
      else (n, i)
    let n :=
      if keyGT n.keys (i + 1) cr.«end» then n.splitChild i cr.«end» none
      else n
    match addLeafLoop t fuel n i cr.start cr st 0 with
    | .error s => .error s
    | .ok (n, st, prevDI) =>
      let di := st.props.dataIndex.getD 0
      let cl :=
        ((st.props.continuedList.getD []) ++
          ((st.data.drop prevDI).take (di - prevDI))).filter
          (fun e => decide (e.«end» > cr.«end»))
      let st := { st with
        props := { st.props with continuedList := some cl, dataIndex := none },
        data := st.data.drop di }
      .ok (n, st)

/-- Source `insert(data, chrRange, props)`. -/
def insert (t : TreeParams) :
    Nat → PineNode → Option ChromRegion → InsState →
    Except String (PineNode × Bool × InsState)
  | 0, _, _, _ => .error "fuel exhausted"
  | fuel + 1, n, cro, st =>
    -- `if (data && data.length === 1 && !chrRange) chrRange = data[0]`
    let cro := match cro with
      | none =>
        match st.data with
        | [e] => some e
        | _ => none
      | some cr => some cr
    match cro with
    | none => .error "undefined is not a valid chrRegion."
    | some cr0 =>
      let res := orDefault cr0.resolution (orDefault st.props.resolution 1)
      match truncateChrRange n cr0 with
      | .error s => .error s
      | .ok cr =>
        if resolutionEnough t n (some res) then
          -- this node already is the requested summary granularity:
          -- drop desynced entries starting before this node
          let data1 := st.data.dropWhile (fun e => decide (n.start > e.start))
          let st1 := { st with data := data1 }
          match data1 with
          | [] => finishInsert t n st1
          | e0 :: rest =>
            if n.start ≠ e0.start ∨ n.stop ≠ e0.«end» then
              if !n.hasData then
                if n.stop ≤ e0.start then
                  if t.hasSummaryCtor then
                    -- `this.updateSummary(new this.tree._SummaryCtor())`
                    finishInsert t
                      (updateSummary t n (some (.inr ([] : Summary)))) st1
                  else .error "tree._SummaryCtor is not a constructor"
                else .error "Summary range does not match!"
              else finishInsert t n st1
            else
              -- exact match: install as summary, fire callback, consume
              let n' := updateSummary t n (some (.inl e0))
              let st2 := { st1 with
                data := rest,
                calls := st1.calls ++
                  (if st1.props.callbackPresent then [e0] else []) }
              finishInsert t n' st2
        else if n.reverseDepth > 0 then
          match addNonLeafLoop t
              (fun c cro' st' => insert t fuel c (some cro') st')
              (fuel + 1) n 0 (getChildResolution t n none)
              cr.start cr st with
          | .error s => .error s
          | .ok (n1, st1) => finishInsert t n1 st1
        else
          match addLeafRecords t (fuel + 1) n cr st with
          | .error s => .error s
          | .ok (n1, st1) => finishInsert t n1 st1

/-! ## RemovalEngine (`remove`) -/

/-- Modelled from the spec: the external leaf's `remove` — drop the matching
raw entries, reporting whether the leaf still holds content. -/
def removeFromLeaf (d : DataNode) (target : ChromRegion) (exactMatch : Bool) :
    DataNode × Bool :=
  let keep := d.startList.filter (fun e =>
    !(e.start = target.start && e.«end» = target.«end» &&
      (!exactMatch || e = target)))
  ({ d with startList := keep }, !keep.isEmpty)

/-- Source `remove(data, exactMatch, convertTo, props)`: clear this node to
`convertTo` on an exact range (and, under `exactMatch`, value) match,
reporting `!!this.isRoot`; else recurse into the bucket containing
`data.start`, replacing it with `convertTo` and coalescing when the
recursion reports collapse (a missing bucket only logs a warning); finally
report validity: more than one bucket or a non-trivial first bucket.
The optional `props.callback` is invoked with the node itself and is not
modelled. -/
def remove (t : TreeParams) :
    Nat → PineNode → ChromRegion → Bool → PBucket PineNode →
    Except String (PineNode × Bool)
  | 0, _, _, _, _ => .error "fuel exhausted"
  | fuel + 1, n, target, exactMatch, convertTo =>
    if n.start = target.start ∧ n.stop = target.«end» ∧
        (!exactMatch || _compareData target n) = true then
      .ok (n.clear convertTo, n.isRoot)
    else
      let i := advanceIdx n.keys target.start 0 n.keys.length
      let post := fun (n : PineNode) =>
        (Except.ok
          (n, (decide (n.values.length > 1) || bucketTruthy n.firstChild)) :
          Except String (PineNode × Bool))
      match n.values.getD i .unknown with
      | .branch c =>
        match remove t fuel c target exactMatch convertTo with
        | .error s => .error s
        | .ok (c', ok) =>
          let n := n.setValue i (.branch c')
          let n :=
            if !ok then (_mergeChild (n.setValue i convertTo) i true false).1
            else n
          post n
      | .leaf d =>
        let (d', ok) := removeFromLeaf d target exactMatch
        let n := n.setValue i (.leaf d')
        let n :=
          if !ok then (_mergeChild (n.setValue i convertTo) i true false).1
          else n
        post n
      | _ =>
        -- `logger.warn('Data ... is not found in the tree.')`, no action
        post n

/-! ## Auxiliary predicates for the verification -/

/-- The recursive data-completeness predicate of the spec's invariant:
every bucket is KnownEmpty or a present child/leaf whose own summary/data
is present, recursively (`fuel` bounds the depth). -/
def dataCompleteB : Nat → PineNode → Bool
  | 0, _ => false
  | f + 1, n =>
    n.values.all fun b =>
      match b with
      | .knownEmpty => true
      | .unknown => false
      | .leaf d => d.hasData
      | .branch c => c.hasData && dataCompleteB f c

/-- The one-level bucket condition of `updateSummary`'s recomputation fold:
a bucket passes iff it is KnownEmpty, or a child with a present summary at
positive depth, or a leaf at depth 0. -/
def bucketOkB (rd : Nat) : PBucket PineNode → Bool
  | .knownEmpty => true
  | .unknown => false
  | .branch c => decide (rd > 0) && c.hasData
  | .leaf _ => decide (rd = 0)

def strictIncB : List Int → Bool
  | a :: b :: r => decide (a < b) && strictIncB (b :: r)
  | _ => true

/-- Structural well-formedness of the aligned `keys`/`values` suffixes:
every bucket window `[k0, k1)` holds an empty sentinel, a leaf at depth 0
starting at `k0`, or a child node at depth `rd - 1` spanning exactly the
window (`wfChild` checks the child recursively). -/
def wfBuckets (wfChild : PineNode → Bool) (rd : Nat) :
    List Int → List (PBucket PineNode) → Bool
  | _ :: [], [] => true
  | k0 :: k1 :: ks, v :: vs =>
    (match v with
     | .unknown => true
     | .knownEmpty => true
     | .branch c =>
       decide (rd = c.reverseDepth + 1) && decide (c.start = k0) &&
       decide (c.stop = k1) && wfChild c
     | .leaf d => decide (rd = 0) && decide (d.start = k0)) &&
    wfBuckets wfChild rd (k1 :: ks) vs
  | _, _ => false

/-- Well-formed node: boundary keys bracket the node's range, keys strictly
increase, and all buckets are well-formed (`fuel ≥ reverseDepth + 1`
suffices). -/
def wfB : Nat → PineNode → Bool
  | 0, _ => false
  | f + 1, n =>
    decide (n.keys.head? = some n.start) &&
    decide (n.keys.getLast? = some n.stop) &&
    strictIncB n.keys &&
    wfBuckets (fun c => wfB f c) n.reverseDepth n.keys n.values

/-- A start-ordered list of disjoint non-empty half-open ranges. -/
def Chained (l : List ChromRegion) : Prop :=
  (∀ e ∈ l, e.start < e.«end») ∧ l.Chain' (fun a b => a.«end» ≤ b.start)

/-- Every range of `l` ends by `b` (vacuously true for `[]`). -/
def lastEndLE (l : List ChromRegion) (b : Int) : Prop :=
  ∀ e, l.getLast? = some e → e.«end» ≤ b

/-- The point `x` lies in some range of `l`. -/
def covers (l : List ChromRegion) (x : Int) : Prop :=
  ∃ e ∈ l, e.start ≤ x ∧ x < e.«end»

/-- The bucket-location loop of the pointwise gap predicate. -/
def pgFind (t : TreeParams) (rd : Nat) (res : Int) (x : Int)
    (recur : PineNode → Bool) :
    List Int → List (PBucket PineNode) → Bool
  | k0 :: k1 :: ks, v :: vs =>
    if k0 ≤ x ∧ x < k1 then
      if bucketTruthy v && !(childResolutionOfBucket t rd v ≤ res) then
        match v with
        | .branch c => recur c
        | _ => false
      else !(childHasDataB v)
    else pgFind t rd res x recur (k1 :: ks) vs
  | _, _ => false

/-- The pointwise gap predicate: the bucket of `n` containing `x` (if any)
lacks data at resolution `res`, descending through children of
insufficient resolution exactly as the cache queries do. -/
def pointGap (t : TreeParams) : Nat → PineNode → Int → Int → Bool
  | 0, _, _, _ => false
  | f + 1, n, res, x =>
    pgFind t n.reverseDepth res x (fun c => pointGap t f c res x)
      n.keys n.values

/-- The single-point query range `[x, x+1)` at resolution `res`. -/
def pointCR (cr : ChromRegion) (res : Int) (x : Int) : ChromRegion :=
  ⟨cr.chr, x, x + 1, some res, none⟩

/-- Modelled from the claim's words (for the refinement comparison of C9
only, never from the source): the walk of `hasUncachedRange` with child
sufficiency evaluated at the effective resolution
`requested / bufferingRatio` — i.e. `childRes ≤ res / br`, expressed as
`childRes * br ≤ res` for the positive clamped ratio. -/
def hurLoopC9 (t : TreeParams) (rd : Nat) (res : Int) (br : Int)
    (cr : ChromRegion) (recur : PineNode → Bool) :
    List Int → List (PBucket PineNode) → Bool
  | k0 :: k1 :: ks, v :: vs =>
    if k0 < cr.«end» then
      (if bucketTruthy v && !(childResolutionOfBucket t rd v * br ≤ res) then
        match v with
        | .branch c => recur c
        | _ => false
      else !(childHasDataB v)) ||
      hurLoopC9 t rd res br cr recur (k1 :: ks) vs
    else false
  | _, _ => false

/-- Modelled from the claim's words (refinement comparison for C9): the
claimed behaviour of `hasUncachedRange` with buffered sufficiency. -/
def hasUncachedRangeC9 (t : TreeParams) :
    Nat → PineNode → ChromRegion → QueryProps → Bool
  | 0, _, _, _ => false
  | fuel + 1, n, cr, pr =>
    let res := effResolution cr pr
    let br0 := orDefault pr.bufferingRatio 1
    let br := if br0 < 1 then 1 else br0
    let (ks, vs) := skipBuckets cr.start n.keys n.values
    hurLoopC9 t n.reverseDepth res br cr
      (fun c => hasUncachedRangeC9 t fuel c cr pr) ks vs

/-! ## Concrete instances used by the closed theorems -/

/-- The tree of Scenario A: scalingFactor 10, leafScalingFactor 100. -/
def scnTree : TreeParams := ⟨"chr1", 10, 100, true⟩

/-- The raw entry `[500, 600)` of Scenario A. -/
def scnEntry : ChromRegion := ⟨"chr1", 500, 600, none, none⟩

def scnProps : InsProps := ⟨none, false, none, true, none⟩

/-- Scenario A's root: one fresh node over `[0, 100000)`. -/
def scnRoot : PineNode := mkPineNode scnTree true 0 100000

/-- Scenario A after inserting the single entry `[500, 600)` (the insert
range is the entry's own range). -/
def scnInserted : PineNode :=
  match insert scnTree 64 scnRoot (some ⟨"chr1", 500, 600, none, none⟩)
      ⟨[scnEntry], scnProps, []⟩ with
  | .ok (n, _, _) => n
  | .error _ => scnRoot

/-- The Scenario A round trip: traverse `[0, 100000)` at resolution 1 and
collect the emitted entries. -/
def scnTraverseResult : Except String (List CRS) :=
  match PineNode.traverse scnTree 64 scnInserted
      (some ⟨"chr1", 0, 100000, some 1, none⟩)
      ⟨fun _ => true, none, false, none⟩ false with
  | .ok (em, _, _) => .ok em
  | .error s => .error s

/-- A fresh root over `[0, 1000)` (reverseDepth 1) for the C1
counterexample. -/
def c1Root : PineNode := mkPineNode scnTree true 0 1000

/-- The C1 counterexample, step 1: insert `[500, 600)` over the whole
`[0, 1000)` — every bucket becomes confirmed-empty or loaded and every
summary becomes present. -/
def c1Inserted : PineNode :=
  match insert scnTree 64 c1Root (some ⟨"chr1", 0, 1000, some 1, none⟩)
      ⟨[scnEntry], scnProps, []⟩ with
  | .ok (n, _, _) => n
  | .error _ => c1Root

/-- The C1 counterexample, step 2: remove `[500, 600)` with an Unknown
(`null`) collapse value — the child is cleared and its bucket in the root
becomes Unknown, while the root's summary is never refreshed. -/
def c1Removed : PineNode :=
  match remove scnTree 64 c1Inserted ⟨"chr1", 500, 600, none, none⟩
      false .unknown with
  | .ok (n, _) => n
  | .error _ => c1Inserted

def bucketIsUnknown : PBucket PineNode → Bool
  | .unknown => true
  | _ => false

/-- C9 counterexample fixture: a depth-1 node whose single bucket holds a
child of resolution exactly 100 that has data (summary present) but whose
own bucket is Unknown. -/
def c9Child : PineNode :=
  .mk false 0 100 0 [0, 100] [.unknown] (some []) (some (.inr []))

def c9Parent : PineNode :=
  .mk true 0 100 1 [0, 100] [.branch c9Child] none none

def c9Query : ChromRegion := ⟨"chr1", 0, 100, some 100, none⟩

def c9Props : QueryProps := ⟨none, some 2⟩

/-! # Theorems -/

set_option maxRecDepth 40000

/-! ## Bridge lemmas: integer division vs. real floor/ceil/round -/

theorem intDiv_eq_floor (a b : Int) (hb : 0 < b) :
    a / b = Int.floor ((a : ℚ) / (b : ℚ)) := by
  have hcast : ((b.toNat : ℕ) : ℚ) = (b : ℚ) := by
    have : ((b.toNat : ℕ) : Int) = b := Int.toNat_of_nonneg (le_of_lt hb)
    exact_mod_cast congrArg (fun z : Int => (z : ℚ)) this
  have h := Rat.floor_intCast_div_natCast a b.toNat
  rw [hcast] at h
  have hb' : ((b.toNat : ℕ) : Int) = b := Int.toNat_of_nonneg (le_of_lt hb)
  rw [hb'] at h
  exact h.symm

theorem jsFloorD_eq (v r : Int) (hr : 0 < r) :
    jsFloorD v r = Int.floor ((v : ℚ) / (r : ℚ)) :=
  intDiv_eq_floor v r hr

theorem jsCeilD_eq (v r : Int) (hr : 0 < r) :
    jsCeilD v r = Int.ceil ((v : ℚ) / (r : ℚ)) := by
  unfold jsCeilD
  rw [intDiv_eq_floor (-v) r hr]
  have h : ((-v : Int) : ℚ) / (r : ℚ) = -((v : ℚ) / (r : ℚ)) := by
    push_cast
    ring
  have hceil : Int.ceil ((v : ℚ) / (r : ℚ)) =
      -Int.floor (-((v : ℚ) / (r : ℚ))) := by
    rw [← Int.ceil_neg, neg_neg]
  rw [hceil, h]

theorem jsRoundD_eq (v r : Int) (hr : 0 < r) :
    jsRoundD v r = Int.floor ((v : ℚ) / (r : ℚ) + 1 / 2) := by
  unfold jsRoundD
  rw [intDiv_eq_floor (2 * v + r) (2 * r) (by omega)]
  congr 1
  have hr' : (r : ℚ) ≠ 0 := by exact_mod_cast (by omega : r ≠ 0)
  field_simp
  ring

theorem intDiv_mul_le (a b : Int) (hb : 0 < b) : a / b * b ≤ a := by
  have h := Int.ediv_add_emod a b
  have h2 := Int.emod_nonneg a (by omega : b ≠ 0)
  have h3 : b * (a / b) = a / b * b := by ring
  omega

/-- The floor snap never exceeds the value. -/
theorem fitResolution_floor_le (v r : Int) (hr : 0 < r) :
    fitResolution v r (some jsFloorD) ≤ v := by
  unfold fitResolution jsFloorD
  simpa using intDiv_mul_le v r hr

/-- The ceil snap never falls below the value. -/
theorem fitResolution_le_ceil (v r : Int) (hr : 0 < r) :
    v ≤ fitResolution v r (some jsCeilD) := by
  unfold fitResolution jsCeilD
  simp only [Option.getD_some]
  have h := intDiv_mul_le (-v) r hr
  have h2 : -(-v / r) * r = -(-v / r * r) := by ring
  omega

/-!
## C4 — the resolution ladder
-/

/-- C4: for every reverse depth `d`, `_getResolutionAtDepth(d)` equals
`⌊leafScalingFactor · scalingFactor^d⌋`, this value is strictly increasing
in `d` for `scalingFactor > 1` and `leafScalingFactor ≥ 1`, and every
node's `resolution` getter equals
`_getResolutionAtDepth(reverseDepth(node))`. -/
theorem c4_resolution_ladder (t : TreeParams)
    (hsf : 1 < t.scalingFactor) (hlsf : 1 ≤ t.leafScalingFactor) :
    (∀ d : Nat, _getResolutionAtDepth t d =
      Int.floor ((t.leafScalingFactor : ℚ) * (t.scalingFactor : ℚ) ^ d)) ∧
    StrictMono (fun d : Nat => _getResolutionAtDepth t d) ∧
    (∀ n : PineNode, n.resolution t = _getResolutionAtDepth t n.reverseDepth) := by
  refine ⟨fun d => ?_, ?_, fun n => rfl⟩
  · unfold _getResolutionAtDepth
    have : ((t.leafScalingFactor : ℚ)) * (t.scalingFactor : ℚ) ^ d =
        ((t.scalingFactor ^ d * t.leafScalingFactor : Int) : ℚ) := by
      push_cast
      ring
    rw [this, Int.floor_intCast]
  · apply strictMono_nat_of_lt_succ
    intro d
    unfold _getResolutionAtDepth
    have hpow : t.scalingFactor ^ d < t.scalingFactor ^ (d + 1) :=
      pow_lt_pow_right₀ hsf (by omega)
    have hl : (0:Int) < t.leafScalingFactor := by omega
    exact mul_lt_mul_of_pos_right hpow hl

/-- C4 witness at `scalingFactor = 10`, `leafScalingFactor = 100`. -/
theorem c4_resolution_ladder_witness :
    1 < scnTree.scalingFactor ∧ 1 ≤ scnTree.leafScalingFactor ∧
    ((∀ d : Nat, _getResolutionAtDepth scnTree d =
      Int.floor ((scnTree.leafScalingFactor : ℚ) *
        (scnTree.scalingFactor : ℚ) ^ d)) ∧
    StrictMono (fun d : Nat => _getResolutionAtDepth scnTree d) ∧
    (∀ n : PineNode, n.resolution scnTree =
      _getResolutionAtDepth scnTree n.reverseDepth)) :=
  ⟨by decide, by decide,
    c4_resolution_ladder scnTree (by decide) (by decide)⟩

/-!
## C5 — `_getClosestResolution`

The characterisation below holds of the exact-logarithm idealisation
only.  The program computes the floored logarithm quotient on binary64
doubles, and at exact ladder points the host quotient falls one ulp below
the integer, so the program returns one ladder step less than the largest
ladder value — the claim fails on the program itself.  The divergence is
computed at the end of the section from the pinned host `Math.log`
values.
-/

/-- The exact-logarithm idealisation satisfies the claimed
characterisation: for an integral requested resolution `r`, when
`r ≥ leafScalingFactor` the result is the largest ladder value
`leafScalingFactor · scalingFactor^k ≤ r` (in particular it is ≤ r); when
`r < leafScalingFactor` the result is 1.  (The program itself violates
this at exact ladder points; see the divergence computation below.) -/
theorem closestResolution_ideal_spec (t : TreeParams) (r : Int)
    (hsf : 1 < t.scalingFactor) (hlsf : 1 ≤ t.leafScalingFactor) :
    (t.leafScalingFactor ≤ r →
      ∃ k : Nat, _getClosestResolution t r 1 =
          t.leafScalingFactor * t.scalingFactor ^ k ∧
        t.leafScalingFactor * t.scalingFactor ^ k ≤ r ∧
        (∀ j : Nat, t.leafScalingFactor * t.scalingFactor ^ j ≤ r →
          t.leafScalingFactor * t.scalingFactor ^ j ≤
            t.leafScalingFactor * t.scalingFactor ^ k)) ∧
    (t.leafScalingFactor ≤ r → _getClosestResolution t r 1 ≤ r) ∧
    (r < t.leafScalingFactor → _getClosestResolution t r 1 = 1) := by
  have hsf2 : 2 ≤ t.scalingFactor := by omega
  have hden : 1 ≤ 1 * t.leafScalingFactor := by omega
  constructor
  · intro hle
    refine ⟨ilogFloor t.scalingFactor r (1 * t.leafScalingFactor), ?_, ?_, ?_⟩
    · unfold _getClosestResolution
      rw [if_pos (by omega : t.leafScalingFactor * 1 ≤ r)]
      ring
    · have h := @ilogFloor_le t.scalingFactor r (1 * t.leafScalingFactor)
        (by omega)
      calc t.leafScalingFactor *
          t.scalingFactor ^ ilogFloor t.scalingFactor r (1 * t.leafScalingFactor)
          = t.scalingFactor ^
              ilogFloor t.scalingFactor r (1 * t.leafScalingFactor) *
            (1 * t.leafScalingFactor) := by ring
      _ ≤ r := h
    · intro j hj
      have hj' : t.scalingFactor ^ j * (1 * t.leafScalingFactor) ≤ r := by
        calc t.scalingFactor ^ j * (1 * t.leafScalingFactor)
            = t.leafScalingFactor * t.scalingFactor ^ j := by ring
        _ ≤ r := hj
      have hk := ilogFloor_greatest hsf2 hden (by omega) j hj'
      have hpow : t.scalingFactor ^ j ≤
          t.scalingFactor ^ ilogFloor t.scalingFactor r (1 * t.leafScalingFactor) :=
        pow_le_pow_right₀ (by omega) hk
      have hl : (0:Int) ≤ t.leafScalingFactor := by omega
      exact mul_le_mul_of_nonneg_left hpow hl
  · constructor
    · intro hle
      unfold _getClosestResolution
      rw [if_pos (by omega : t.leafScalingFactor * 1 ≤ r)]
      have h := @ilogFloor_le t.scalingFactor r (1 * t.leafScalingFactor)
        (by omega)
      calc t.scalingFactor ^
            ilogFloor t.scalingFactor r (1 * t.leafScalingFactor) *
          t.leafScalingFactor
          = t.scalingFactor ^
              ilogFloor t.scalingFactor r (1 * t.leafScalingFactor) *
            (1 * t.leafScalingFactor) := by ring
      _ ≤ r := h
    · intro hlt
      unfold _getClosestResolution
      rw [if_neg (by omega : ¬ t.leafScalingFactor * 1 ≤ r)]

/-- Evaluation of the idealised characterisation at `scalingFactor = 10`,
`leafScalingFactor = 100`, `r = 2500`: the ladder value 1000. -/
theorem closestResolution_ideal_eval :
    1 < scnTree.scalingFactor ∧ 1 ≤ scnTree.leafScalingFactor ∧
    scnTree.leafScalingFactor ≤ 2500 ∧
    _getClosestResolution scnTree 2500 1 = 1000 ∧
    _getClosestResolution scnTree 2500 1 ≤ 2500 ∧
    _getClosestResolution scnTree 50 1 = 1 := by
  refine ⟨by decide, by decide, by decide, by decide, ?_, ?_⟩
  · exact (closestResolution_ideal_spec scnTree 2500 (by decide)
      (by decide)).2.1 (by decide)
  · exact (closestResolution_ideal_spec scnTree 50 (by decide)
      (by decide)).2.2 (by decide)

/-- The binary64 double the hosts return for `Math.log 10`, as an exact
significand: `2.302585092994046 = jsLogTen / 2 ^ 50`, the correct
rounding of `ln 10 = 2.30258509299404568…` (ECMAScript specifies
`Math.log` only as implementation-approximated; the major engines agree
on this value). -/
def jsLogTen : Int := 2592480341699211

/-- The binary64 double the hosts return for `Math.log 1000`:
`6.907755278982137 = jsLogThousand / 2 ^ 45`, the correct rounding of
`ln 1000 = 6.90775527898213705…`. -/
def jsLogThousand : Int := 243045032034301

/-- The significand, in units of `2 ^ (-51)`, of the IEEE-754 quotient
`Math.log 1000 / Math.log 10` of the two pinned doubles: the exact
quotient `(jsLogThousand / 2 ^ 45) / (jsLogTen / 2 ^ 50)` lies in
`(3 - 2 ^ (-50), 3)`, inside the binade `[2, 4)` of step `2 ^ (-51)` and
away from a rounding tie, so round-to-nearest-even is the half-up
rounding `⌊q * 2 ^ 51 + 1 / 2⌋` computed here. -/
def hostLogQuotSig : Int :=
  (2 * (jsLogThousand * 2 ^ 56) + jsLogTen) / (2 * jsLogTen)

/-- C5: at `requiredRes = 100000` with the Scenario-A factors
(`scalingFactor` 10, `leafScalingFactor` 100) the source computes
`Math.floor(Math.log(100000 / 100) / Math.log(10))` on binary64 doubles:
the quotient rounds to `2.9999999999999996` (significand `3 * 2 ^ 51 - 1`),
its floor is 2, and the program returns `10 ^ 2 * 100 = 10000` — one
ladder step below the largest ladder value `≤ 100000` that the claim and
the source's own `@returns` comment promise, and which the exact-log
idealisation `_getClosestResolution` computes. -/
theorem c5_closestResolution_float_underfloor :
    hostLogQuotSig = 3 * 2 ^ 51 - 1 ∧
    jsFloorD hostLogQuotSig (2 ^ 51) = 2 ∧
    (10 : Int) ^ (jsFloorD hostLogQuotSig (2 ^ 51)).toNat *
      scnTree.leafScalingFactor = 10000 ∧
    _getClosestResolution scnTree 100000 1 = 100000 ∧
    (10000 : Int) < 100000 := by
  decide

/-!
## C10 — `fitResolution`'s default rounding mode
-/

/-- C10: `fitResolution(v, r)` without a rounding function snaps using
round-to-nearest (half up): it returns `⌊v/r + 1/2⌋ · r`, i.e. the default
rounding mode is `Math.round`, not `Math.floor`. -/
theorem c10_fitResolution_default (v r : Int) (hr : 0 < r) :
    fitResolution v r none = jsRoundD v r * r ∧
    jsRoundD v r = Int.floor ((v : ℚ) / (r : ℚ) + 1 / 2) ∧
    fitResolution v r none = fitResolution v r (some jsRoundD) := by
  refine ⟨rfl, jsRoundD_eq v r hr, rfl⟩

/-- C10 witness at `v = 15`, `r = 10`: the default snap rounds up to 20
where a `Math.floor` snap would give 10. -/
theorem c10_fitResolution_default_witness :
    (0 : Int) < 10 ∧
    (fitResolution 15 10 none = jsRoundD 15 10 * 10 ∧
      jsRoundD 15 10 = Int.floor ((15 : ℚ) / (10 : ℚ) + 1 / 2) ∧
      fitResolution 15 10 none = fitResolution 15 10 (some jsRoundD)) ∧
    fitResolution 15 10 none = 20 ∧
    fitResolution 15 10 (some jsFloorD) = 10 :=
  ⟨by decide, c10_fitResolution_default 15 10 (by decide), by decide, by decide⟩

/-!
## C8 — `updateSummary` recomputation aborts cleanly
-/

theorem summaryFold_none_of_bad {rd : Nat} {vs : List (PBucket PineNode)}
    (hbad : (∃ b ∈ vs, b = PBucket.unknown) ∨
      (0 < rd ∧ ∃ c : PineNode, PBucket.branch c ∈ vs ∧ c.summary = none)) :
    ∀ acc, summaryFold rd acc vs = none := by
  induction vs with
  | nil =>
    rcases hbad with ⟨b, hb, _⟩ | ⟨_, c, hc, _⟩
    · exact absurd hb (List.not_mem_nil b)
    · exact absurd hc (List.not_mem_nil _)
  | cons v rest ih =>
    intro acc
    match v with
    | .unknown => simp [summaryFold]
    | .knownEmpty =>
      simp only [summaryFold]
      apply ih
      rcases hbad with ⟨b, hb, hbu⟩ | ⟨hrd, c, hc, hcs⟩
      · rcases List.mem_cons.mp hb with h | h
        · subst hbu; cases h
        · exact Or.inl ⟨b, h, hbu⟩
      · rcases List.mem_cons.mp hc with h | h
        · cases h
        · exact Or.inr ⟨hrd, c, h, hcs⟩
    | .leaf d =>
      simp only [summaryFold]
      by_cases hrd : rd = 0
      · rw [if_pos hrd]
        apply ih
        rcases hbad with ⟨b, hb, hbu⟩ | ⟨hrd', _, _, _⟩
        · rcases List.mem_cons.mp hb with h | h
          · subst hbu; cases h
          · exact Or.inl ⟨b, h, hbu⟩
        · omega
      · rw [if_neg hrd]
    | .branch c =>
      simp only [summaryFold]
      by_cases hrd : 0 < rd
      · rw [if_pos hrd]
        match hcs : c.summary with
        | none => rfl
        | some cs =>
          apply ih
          rcases hbad with ⟨b, hb, hbu⟩ | ⟨hrd', c', hc', hcs'⟩
          · rcases List.mem_cons.mp hb with h | h
            · subst hbu; cases h
            · exact Or.inl ⟨b, h, hbu⟩
          · rcases List.mem_cons.mp hc' with h | h
            · injection h with h'
              subst h'
              rw [hcs] at hcs'
              cases hcs'
            · exact Or.inr ⟨hrd', c', h, hcs'⟩
      · rw [if_neg hrd]

theorem withSummary_summary (n : PineNode) (sm : Option Summary)
    (cr : Option CRS) : (n.withSummary sm cr).summary = sm := by
  cases n; rfl

theorem withSummary_summaryCR (n : PineNode) (sm : Option Summary)
    (cr : Option CRS) : (n.withSummary sm cr).summaryChromRegion = cr := by
  cases n; rfl

/-- C8: when `updateSummary` performs a full bottom-up recomputation (no
valid precomputed summary supplied and the cached summary absent), an
Unknown bucket — or, at positive depth, a present child lacking its own
summary — aborts it: the summary ends up absent and the cached wrapper is
deleted, never left half-updated. -/
theorem c8_updateSummary_abort (t : TreeParams) (n : PineNode)
    (ce : Option CRS)
    (hctor : t.hasSummaryCtor = true) (habs : n.summary = none)
    (hext : summaryExtract ce = none)
    (hbad : (∃ b ∈ n.values, b = PBucket.unknown) ∨
      (0 < n.reverseDepth ∧
        ∃ c : PineNode, PBucket.branch c ∈ n.values ∧ c.summary = none)) :
    (updateSummary t n ce).summary = none ∧
    (updateSummary t n ce).summaryChromRegion = none := by
  unfold updateSummary
  rw [hctor, hext]
  simp only [if_true]
  rw [if_pos habs, summaryFold_none_of_bad hbad []]
  exact ⟨withSummary_summary n none none, withSummary_summaryCR n none none⟩

/-- C8 witness: a depth-1 node with one Unknown bucket and no cached
summary stays without summary or wrapper after `updateSummary()`. -/
theorem c8_updateSummary_abort_witness :
    scnTree.hasSummaryCtor = true ∧
    (PineNode.mk true 0 100 1 [0, 100] [.unknown] none none).summary = none ∧
    summaryExtract none = none ∧
    ((updateSummary scnTree
        (PineNode.mk true 0 100 1 [0, 100] [.unknown] none none) none).summary
        = none ∧
      (updateSummary scnTree
        (PineNode.mk true 0 100 1 [0, 100] [.unknown] none none)
          none).summaryChromRegion = none) :=
  ⟨by decide, by decide, by decide,
    c8_updateSummary_abort scnTree
      (PineNode.mk true 0 100 1 [0, 100] [.unknown] none none) none
      (by decide) (by decide) (by decide)
      (Or.inl ⟨.unknown, List.mem_cons_self _ _, rfl⟩)⟩

/-!
## C1 — the summary-presence invariant
-/

/-- C1 counterexample: starting from a fresh `[0, 1000)` root, insert
`[500, 600)` over the whole range (every summary becomes present), then
remove `[500, 600)` with collapse value Unknown (`null`, as in the shell's
default).  Both operations succeed, and the resulting root keeps its
summary **present** while one of its buckets is Unknown — so the claimed
iff (summary present ⇔ every bucket KnownEmpty or a present child with
data, recursively) is violated on a reachable node. -/
theorem c1_counterexample :
    (insert scnTree 64 c1Root (some ⟨"chr1", 0, 1000, some 1, none⟩)
        ⟨[scnEntry], scnProps, []⟩).isOk = true ∧
    (remove scnTree 64 c1Inserted ⟨"chr1", 500, 600, none, none⟩
        false .unknown).isOk = true ∧
    c1Removed.hasData = true ∧
    c1Removed.values.any bucketIsUnknown = true ∧
    dataCompleteB (c1Removed.reverseDepth + 1) c1Removed = false := by
  decide

theorem summaryFold_isSome_eq_all (rd : Nat) (vs : List (PBucket PineNode)) :
    ∀ acc, (summaryFold rd acc vs).isSome = vs.all (bucketOkB rd) := by
  induction vs with
  | nil => intro acc; simp [summaryFold]
  | cons v rest ih =>
    intro acc
    match v with
    | .knownEmpty => simp [summaryFold, bucketOkB, ih]
    | .unknown => simp [summaryFold, bucketOkB]
    | .branch c =>
      simp only [summaryFold, List.all_cons]
      by_cases hrd : 0 < rd
      · rw [if_pos hrd]
        match hcs : c.summary with
        | none => simp [bucketOkB, PineNode.hasData, hcs, hrd]
        | some cs => simp [bucketOkB, PineNode.hasData, hcs, hrd, ih]
      · rw [if_neg hrd]
        simp [bucketOkB, hrd]
    | .leaf d =>
      simp only [summaryFold, List.all_cons]
      by_cases hrd : rd = 0
      · subst hrd
        rw [if_pos rfl]
        simp [bucketOkB, ih, DataNode.hasData]
      · rw [if_neg hrd]
        simp [bucketOkB, hrd]

/-- C1 amended: the iff is exactly the property (re-)established by each
`updateSummary()` recomputation — after `updateSummary()` with no
precomputed entry, the summary is present iff it was already present
(stale summaries are kept, never invalidated) or every bucket is
KnownEmpty, a present child with a present summary (at positive depth), or
a present leaf (at depth 0).  `insert` refreshes this bottom-up, but
`remove` never refreshes ancestors, so after a remove with an Unknown
collapse value the recursive global iff can fail (see the
counterexample). -/
theorem c1_amended_updateSummary_iff (t : TreeParams) (n : PineNode)
    (hctor : t.hasSummaryCtor = true) :
    (updateSummary t n none).hasData =
      (n.hasData || n.values.all (bucketOkB n.reverseDepth)) := by
  unfold updateSummary
  rw [hctor]
  simp only [summaryExtract, if_true]
  match hs : n.summary with
  | some s =>
    rw [if_neg (by simp : ¬ (some s = none))]
    simp [PineNode.hasData, hs]
  | none =>
    rw [if_pos rfl]
    match hf : summaryFold n.reverseDepth [] n.values with
    | some s2 =>
      have h := summaryFold_isSome_eq_all n.reverseDepth n.values []
      rw [hf] at h
      simp only [Option.isSome_some, Eq.comm] at h
      simp [PineNode.hasData, withSummary_summary, hs, ← h]
    | none =>
      have h := summaryFold_isSome_eq_all n.reverseDepth n.values []
      rw [hf] at h
      simp only [Option.isSome_none] at h
      simp [PineNode.hasData, withSummary_summary, hs, ← h]

/-- C1 amended witness: a depth-0 node with one KnownEmpty bucket and no
prior summary acquires one by recomputation. -/
theorem c1_amended_updateSummary_iff_witness :
    scnTree.hasSummaryCtor = true ∧
    (updateSummary scnTree
        (PineNode.mk true 0 100 0 [0, 100] [.knownEmpty] none none)
        none).hasData =
      ((PineNode.mk true 0 100 0 [0, 100] [.knownEmpty] none none).hasData ||
        (PineNode.mk true 0 100 0 [0, 100]
            [.knownEmpty] none none).values.all (bucketOkB 0)) :=
  ⟨by decide,
    c1_amended_updateSummary_iff scnTree
      (PineNode.mk true 0 100 0 [0, 100] [.knownEmpty] none none) (by decide)⟩

/-!
## C9 — bufferingRatio and the sufficiency walk
-/

/-- C9 counterexample: a bucket holding a child of resolution 100 with
data, queried at resolution 100 with bufferingRatio 2.  The claim says
sufficiency is evaluated at `100 / 2 = 50`, so the child (resolution 100)
would be descended into and its Unknown bucket reported; the source
evaluates sufficiency at the requested resolution 100, accepts the child,
and reports nothing. -/
theorem c9_counterexample :
    hasUncachedRange scnTree 2 c9Parent c9Query c9Props = false ∧
    hasUncachedRangeC9 scnTree 2 c9Parent c9Query c9Props = true := by
  decide

theorem hurLoop_congr (t : TreeParams) (rd : Nat) (res : Int)
    (cr : ChromRegion) (r1 r2 : PineNode → Bool) (h : ∀ c, r1 c = r2 c) :
    ∀ (ks : List Int) (vs : List (PBucket PineNode)),
      hurLoop t rd res cr r1 ks vs = hurLoop t rd res cr r2 ks vs := by
  intro ks vs
  induction vs generalizing ks with
  | nil => cases ks with
    | nil => rfl
    | cons k0 ks1 => cases ks1 <;> rfl
  | cons v vs ih =>
    cases ks with
    | nil => rfl
    | cons k0 ks1 =>
      cases ks1 with
      | nil => rfl
      | cons k1 ks2 =>
        simp only [hurLoop, ih]
        cases v <;> simp [h]

theorem gurLoop_congr (t : TreeParams) (rd : Nat) (res : Int) (br : Int)
    (cr : ChromRegion)
    (r1 r2 : PineNode → List ChromRegion → List ChromRegion)
    (h : ∀ c a, r1 c a = r2 c a) :
    ∀ (ks : List Int) (vs : List (PBucket PineNode)) (acc : List ChromRegion),
      gurLoop t rd res br cr r1 ks vs acc =
        gurLoop t rd res br cr r2 ks vs acc := by
  intro ks vs
  induction vs generalizing ks with
  | nil => intro acc; cases ks with
    | nil => rfl
    | cons k0 ks1 => cases ks1 <;> rfl
  | cons v vs ih =>
    intro acc
    cases ks with
    | nil => rfl
    | cons k0 ks1 =>
      cases ks1 with
      | nil => rfl
      | cons k1 ks2 =>
        simp only [gurLoop, ih]
        cases v <;> simp [h]

theorem hur_ratio_irrelevant (t : TreeParams) (cr : ChromRegion)
    (res : Option Int) :
    ∀ (fuel : Nat) (n : PineNode) (b b' : Option Int),
      hasUncachedRange t fuel n cr ⟨res, b⟩ =
        hasUncachedRange t fuel n cr ⟨res, b'⟩ := by
  intro fuel
  induction fuel with
  | zero => intro n b b'; rfl
  | succ fuel ih =>
    intro n b b'
    simp only [hasUncachedRange]
    exact hurLoop_congr t n.reverseDepth _ cr _ _ (fun c => ih c b b') _ _

theorem gur_ratio_clamped (t : TreeParams) (cr : ChromRegion)
    (res : Option Int) :
    ∀ (fuel : Nat) (n : PineNode) (b : Int) (acc : List ChromRegion),
      getUncachedRange t fuel n cr ⟨res, some b⟩ acc =
        getUncachedRange t fuel n cr ⟨res, some (max 1 b)⟩ acc := by
  intro fuel
  induction fuel with
  | zero => intro n b acc; rfl
  | succ fuel ih =>
    intro n b acc
    simp only [getUncachedRange, orDefault]
    have hbr :
        (if (if b = 0 then 1 else b) < 1 then 1 else if b = 0 then 1 else b) =
        (if (if max 1 b = 0 then 1 else max 1 b) < 1 then 1
         else if max 1 b = 0 then 1 else max 1 b) := by
      split_ifs <;> omega
    rw [hbr]
    exact gurLoop_congr t n.reverseDepth _ _ cr _ _ (fun c a => ih c b a) _ _ _

/-- C9 amended: both walks evaluate child sufficiency at the requested
resolution itself, not at `requested / bufferingRatio`:
`hasUncachedRange` never reads `bufferingRatio` at all, and
`getUncachedRange` uses the ratio (clamping values < 1 to 1, with a logged
diagnostic) only to pick the fetch resolution tagged on reported gaps. -/
theorem c9_amended_ratio_use (t : TreeParams) (fuel : Nat) (n : PineNode)
    (cr : ChromRegion) (res : Option Int) :
    (∀ b b' : Option Int,
      hasUncachedRange t fuel n cr ⟨res, b⟩ =
        hasUncachedRange t fuel n cr ⟨res, b'⟩) ∧
    (∀ (b : Int) (acc : List ChromRegion),
      getUncachedRange t fuel n cr ⟨res, some b⟩ acc =
        getUncachedRange t fuel n cr ⟨res, some (max 1 b)⟩ acc) :=
  ⟨fun b b' => hur_ratio_irrelevant t cr res fuel n b b',
    fun b acc => gur_ratio_clamped t cr res fuel n b acc⟩

/-!
## C2 — the Scenario A round trip
-/

/-- C2: inserting the single entry `[500, 600)` into the fresh Scenario A
tree (scalingFactor 10, leafScalingFactor 100, span `[0, 100000)`)
succeeds, and traversing `[0, 100000)` at resolution 1 afterwards emits
exactly that entry, unchanged. -/
theorem c2_scenarioA_roundTrip :
    (insert scnTree 64 scnRoot (some ⟨"chr1", 500, 600, none, none⟩)
        ⟨[scnEntry], scnProps, []⟩).isOk = true ∧
    scnTraverseResult = .ok [.inl scnEntry] := by
  decide

/-!
## C6 — `traverse`
-/

/-- C6: `traverse` throws on an absent range; does nothing (returning the
source's `undefined`) when the node's range does not intersect `chrRange`;
and when the ranges intersect, the node's resolution satisfies the
requested one and the node has data, it hands exactly the node's cached
summary wrapper `w` to the callback, once, through the filter, without
descending into any bucket. -/
theorem c6_traverse (t : TreeParams) (fuel : Nat) (n : PineNode)
    (ctx : TravCtx) (nfc : Bool) :
    (∃ s, PineNode.traverse t (fuel + 1) n none ctx nfc = .error s) ∧
    (∀ cr : ChromRegion, ¬(n.start < cr.«end» ∧ n.stop > cr.start) →
      PineNode.traverse t (fuel + 1) n (some cr) ctx nfc = .ok ([], none, nfc)) ∧
    (∀ (cr : ChromRegion) (w : CRS),
      n.start < cr.«end» → n.stop > cr.start →
      resolutionEnough t n
        (some (orDefault cr.resolution (orDefault ctx.resolution 1))) = true →
      n.hasData = true → n.summaryChromRegion = some w →
      PineNode.traverse t (fuel + 1) n (some cr) ctx nfc =
        .ok ((match ctx.filter with
              | some f => if f w then [w] else []
              | none => [w]),
          some (_callFuncOnDataEntry ctx (some w)).2, nfc)) := by
  refine ⟨⟨_, rfl⟩, ?_, ?_⟩
  · intro cr hno
    simp only [PineNode.traverse]
    rw [if_neg hno]
  · intro cr w h1 h2 hres hdata hw
    simp only [PineNode.traverse]
    rw [if_pos ⟨h1, h2⟩, hres, hdata, hw]
    simp only [Bool.and_self, if_true]
    match hf : ctx.filter with
    | some f =>
      simp only [_callFuncOnDataEntry, hf]
      by_cases hfw : f w
      · simp [hfw]
      · simp [hfw]
    | none =>
      simp [_callFuncOnDataEntry, hf]

/-- C6 witness on a depth-0 node carrying a summary wrapper, queried at an
overlapping range with a satisfied resolution: the wrapper is emitted once
and the walk does not descend. -/
theorem c6_traverse_witness :
    (∃ s, PineNode.traverse scnTree 1 c9Child none
      ⟨fun _ => true, none, false, none⟩ false = .error s) ∧
    (PineNode.traverse scnTree 1 c9Child
      (some ⟨"chr1", 200, 300, some 100, none⟩)
      ⟨fun _ => true, none, false, none⟩ false = .ok ([], none, false)) ∧
    (PineNode.traverse scnTree 1 c9Child
      (some ⟨"chr1", 0, 50, some 100, none⟩)
      ⟨fun _ => true, none, false, none⟩ false =
      .ok ([.inr []], some true, false)) := by
  have h := c6_traverse scnTree 0 c9Child ⟨fun _ => true, none, false, none⟩ false
  refine ⟨h.1, ?_, ?_⟩
  · exact h.2.1 ⟨"chr1", 200, 300, some 100, none⟩ (by decide)
  · exact h.2.2 ⟨"chr1", 0, 50, some 100, none⟩ (.inr []) (by decide)
      (by decide) (by decide) (by decide) (by decide)

/-!
## C7 — `insert` at sufficient resolution
-/

theorem dropWhile_start_ge {l : List ChromRegion} {s : Int}
    (hsorted : l.Pairwise (fun a b => a.start ≤ b.start)) :
    ∀ e ∈ l.dropWhile (fun e => decide (s > e.start)), s ≤ e.start := by
  induction l with
  | nil => simp
  | cons a l ih =>
    rw [List.dropWhile_cons]
    split
    · exact ih (List.Pairwise.of_cons hsorted)
    · rename_i h
      intro e he
      rcases List.mem_cons.mp he with rfl | he'
      · simpa using h
      · have h1 : ¬ (s > a.start) := by simpa using h
        have h2 : a.start ≤ e.start := (List.pairwise_cons.mp hsorted).1 e he'
        omega

/-- C7: when `insert` runs on a node whose resolution already satisfies
the requested one, then (i) the leading queued entries starting before the
node are dropped (so with a sorted queue every surviving entry starts at
or after the node); (ii) if the first surviving entry exactly matches the
node's range (and carries an embedded summary `s`, as the summary
granularity contract supplies), it is installed as the node's summary, the
optional callback fires on it, and it alone is consumed; (iii) otherwise,
if surviving entries remain and the node has no data, the node becomes a
confirmed-empty summary exactly when no queued entry's start precedes the
node's end (for a sorted queue that is `n.stop ≤ e0.start` on the first
survivor) and `insert` throws the fatal consistency error exactly when the
first survivor starts before the node's end. -/
theorem c7_insert_summary_granularity (t : TreeParams) (fuel : Nat)
    (n : PineNode) (cr0 : ChromRegion) (st : InsState)
    (hover1 : cr0.start < n.stop) (hover2 : cr0.«end» > n.start)
    (hres : resolutionEnough t n
      (some (orDefault cr0.resolution (orDefault st.props.resolution 1))) = true)
    (hctor : t.hasSummaryCtor = true)
    (hsorted : st.data.Pairwise (fun a b => a.start ≤ b.start)) :
    (∀ e ∈ st.data.dropWhile (fun e => decide (n.start > e.start)),
      n.start ≤ e.start) ∧
    (∀ e0 rest s,
      st.data.dropWhile (fun e => decide (n.start > e.start)) = e0 :: rest →
      e0.start = n.start → e0.«end» = n.stop → e0._summary = some s →
      insert t (fuel + 1) n (some cr0) st =
        .ok (n.withSummary (some s) (some (.inl e0)), true,
          { st with
            data := rest,
            calls := st.calls ++
              (if st.props.callbackPresent then [e0] else []) })) ∧
    (∀ e0 rest,
      st.data.dropWhile (fun e => decide (n.start > e.start)) = e0 :: rest →
      (e0.start ≠ n.start ∨ e0.«end» ≠ n.stop) → n.hasData = false →
      ((n.stop ≤ e0.start ↔
          ∀ e ∈ st.data.dropWhile (fun e => decide (n.start > e.start)),
            ¬ e.start < n.stop) ∧
        (n.stop ≤ e0.start →
          insert t (fuel + 1) n (some cr0) st =
            .ok (n.withSummary (some ([] : Summary))
                (some (.inr ([] : Summary))),
              true,
              { st with data :=
                  st.data.dropWhile (fun e => decide (n.start > e.start)) })) ∧
        (e0.start < n.stop →
          insert t (fuel + 1) n (some cr0) st =
            .error "Summary range does not match!"))) := by
  have hmain : insert t (fuel + 1) n (some cr0) st =
      (match st.data.dropWhile (fun e => decide (n.start > e.start)) with
       | [] =>
         finishInsert t n
           { st with data := st.data.dropWhile (fun e => decide (n.start > e.start)) }
       | e0 :: rest =>
         if n.start ≠ e0.start ∨ n.stop ≠ e0.«end» then
           if !n.hasData then
             if n.stop ≤ e0.start then
               if t.hasSummaryCtor then
                 finishInsert t (updateSummary t n (some (.inr ([] : Summary))))
                   { st with data :=
                       st.data.dropWhile (fun e => decide (n.start > e.start)) }
               else .error "tree._SummaryCtor is not a constructor"
             else .error "Summary range does not match!"
           else
             finishInsert t n
               { st with data :=
                   st.data.dropWhile (fun e => decide (n.start > e.start)) }
         else
           finishInsert t (updateSummary t n (some (.inl e0)))
             { st with
               data := rest,
               calls := st.calls ++
                 (if st.props.callbackPresent then [e0] else []) }) := by
    simp only [insert, truncateChrRange]
    rw [if_pos ⟨hover1, hover2⟩]
    simp only [hres, if_true]
  refine ⟨dropWhile_start_ge hsorted, ?_, ?_⟩
  · intro e0 rest s hdrop he1 he2 hemb
    rw [hdrop] at hmain
    simp only [] at hmain
    rw [hmain]
    have hcond : ¬ (n.start ≠ e0.start ∨ n.stop ≠ e0.«end») := by
      push_neg
      exact ⟨he1.symm, he2.symm⟩
    rw [if_neg hcond]
    have hupd : updateSummary t n (some (.inl e0)) =
        n.withSummary (some s) (some (.inl e0)) := by
      unfold updateSummary
      rw [hctor]
      simp only [if_true, summaryExtract, hemb]
    rw [hupd]
    unfold finishInsert
    have hns : (n.withSummary (some s) (some (.inl e0))).summary = some s :=
      withSummary_summary _ _ _
    have hupd2 : updateSummary t (n.withSummary (some s) (some (.inl e0))) none =
        n.withSummary (some s) (some (.inl e0)) := by
      unfold updateSummary
      rw [hctor]
      simp only [if_true, summaryExtract]
      rw [if_neg (by simp [hns])]
    rw [hupd2]
    have hval : (restructure (n.withSummary (some s) (some (.inl e0)))).isSome
        = true := by
      simp [restructure, PineNode.isEmpty, PineNode.hasData, hns]
    simp only [hval]
  · intro e0 rest hdrop hne hnd
    have hpair : (st.data.dropWhile
        (fun e => decide (n.start > e.start))).Pairwise
        (fun a b => a.start ≤ b.start) :=
      List.Pairwise.sublist (List.dropWhile_sublist _) hsorted
    refine ⟨?_, ?_, ?_⟩
    · constructor
      · intro hle e he
        rw [hdrop] at he
        rcases List.mem_cons.mp he with rfl | he'
        · omega
        · rw [hdrop] at hpair
          have := (List.pairwise_cons.mp hpair).1 e he'
          omega
      · intro hall
        have := hall e0 (by rw [hdrop]; exact List.mem_cons_self _ _)
        omega
    · intro hle
      rw [hdrop] at hmain
      simp only [] at hmain
      rw [hmain]
      rw [if_pos (hne.imp Ne.symm Ne.symm)]
      rw [hnd]
      simp only [Bool.not_false, if_true]
      rw [if_pos hle, if_pos hctor]
      have hupd : updateSummary t n (some (.inr ([] : Summary))) =
          n.withSummary (some ([] : Summary)) (some (.inr ([] : Summary))) := by
        unfold updateSummary
        rw [hctor]
        simp only [if_true, summaryExtract]
      rw [hupd]
      unfold finishInsert
      have hns : (n.withSummary (some ([] : Summary))
          (some (.inr ([] : Summary)))).summary = some [] :=
        withSummary_summary _ _ _
      have hupd2 : updateSummary t
          (n.withSummary (some ([] : Summary)) (some (.inr ([] : Summary))))
          none =
          n.withSummary (some ([] : Summary)) (some (.inr ([] : Summary))) := by
        unfold updateSummary
        rw [hctor]
        simp only [if_true, summaryExtract]
        rw [if_neg (by simp [hns])]
      rw [hupd2]
      have hval : (restructure (n.withSummary (some ([] : Summary))
          (some (.inr ([] : Summary))))).isSome = true := by
        simp [restructure, PineNode.isEmpty, PineNode.hasData, hns]
      simp only [hval]
      rw [hdrop]
    · intro hlt
      rw [hdrop] at hmain
      simp only [] at hmain
      rw [hmain]
      rw [if_pos (hne.imp Ne.symm Ne.symm)]
      rw [hnd]
      simp only [Bool.not_false, if_true]
      rw [if_neg (by omega)]

/-- C7 witness: on the depth-0 node `[500, 600)` of the Scenario A ladder,
with a sorted queue whose head `[500, 600)` matches exactly and carries an
embedded summary, `insert` installs that summary, fires the callback, and
consumes the entry. -/
theorem c7_insert_summary_granularity_witness :
    ((⟨"chr1", 400, 700, some 200, none⟩ : ChromRegion).start <
      (PineNode.mk false 500 600 0 [500, 600] [.unknown] none none).stop ∧
    (⟨"chr1", 400, 700, some 200, none⟩ : ChromRegion).«end» >
      (PineNode.mk false 500 600 0 [500, 600] [.unknown] none none).start) ∧
    insert scnTree 8
        (PineNode.mk false 500 600 0 [500, 600] [.unknown] none none)
        (some ⟨"chr1", 400, 700, some 200, none⟩)
        ⟨[⟨"chr1", 500, 600, none, some [⟨"chr1", 500, 600⟩]⟩],
          ⟨none, true, none, true, none⟩, []⟩ =
      .ok ((PineNode.mk false 500 600 0 [500, 600] [.unknown] none
          none).withSummary (some [⟨"chr1", 500, 600⟩])
          (some (.inl ⟨"chr1", 500, 600, none, some [⟨"chr1", 500, 600⟩]⟩)),
        true,
        { data := [], props := ⟨none, true, none, true, none⟩,
          calls := [⟨"chr1", 500, 600, none, some [⟨"chr1", 500, 600⟩]⟩] }) := by
  constructor
  · exact ⟨by decide, by decide⟩
  · obtain ⟨-, h2, -⟩ := c7_insert_summary_granularity scnTree 7
      (PineNode.mk false 500 600 0 [500, 600] [.unknown] none none)
      ⟨"chr1", 400, 700, some 200, none⟩
      ⟨[⟨"chr1", 500, 600, none, some [⟨"chr1", 500, 600⟩]⟩],
        ⟨none, true, none, true, none⟩, []⟩
      (by decide) (by decide) (by decide) (by decide) (by simp)
    exact h2 ⟨"chr1", 500, 600, none, some [⟨"chr1", 500, 600⟩]⟩ []
      [⟨"chr1", 500, 600⟩] (by decide) (by decide) (by decide) (by decide)

/-!
## C3 — `getUncachedRange` refines `hasUncachedRange`

The proofs below relate the gap list built by `getUncachedRange` to the
boolean verdict of `hasUncachedRange` bucket by bucket.  The two walks
share the loop skeleton; one bucket iteration is factored into
`gurBucketAcc` (the accumulator update of `getUncachedRange`) and
`hurBucketVal` (the verdict of `hasUncachedRange`, which is also the
verdict `pgFind` produces on the bucket containing its query point).
-/

/-- The `bufferingRatio` clamp of `getUncachedRange`
(`props.bufferingRatio || 1`, corrected to `≥ 1`). -/
def effRatio (pr : QueryProps) : Int :=
  let br0 := orDefault pr.bufferingRatio 1
  if br0 < 1 then 1 else br0

/-- The fetch resolution tagged on reported gaps. -/
def gapClos (t : TreeParams) (cr : ChromRegion) (pr : QueryProps) : Int :=
  _getClosestResolution t (effResolution cr pr) (effRatio pr)

/-- The grid-aligned left edge of the query (floor snap of
`chrRange.start`). -/
def gapFloor (t : TreeParams) (cr : ChromRegion) (pr : QueryProps) : Int :=
  fitResolution cr.start (gapClos t cr pr) (some jsFloorD)

/-- The grid-aligned right edge of the query (ceil snap of
`chrRange.end`). -/
def gapCeil (t : TreeParams) (cr : ChromRegion) (pr : QueryProps) : Int :=
  fitResolution cr.«end» (gapClos t cr pr) (some jsCeilD)

/-- One bucket iteration of `gurLoop`: the updated accumulator. -/
def gurBucketAcc (t : TreeParams) (rd : Nat) (res br : Int) (cr : ChromRegion)
    (recur : PineNode → List ChromRegion → List ChromRegion)
    (k0 k1 : Int) (v : PBucket PineNode) (acc : List ChromRegion) :
    List ChromRegion :=
  if bucketTruthy v && !(childResolutionOfBucket t rd v ≤ res) then
    match v with
    | .branch c => recur c acc
    | _ => acc
  else if !(childHasDataB v) then
    let closRes := _getClosestResolution t res br
    let retrieveStart :=
      max k0 (fitResolution cr.start closRes (some jsFloorD))
    let retrieveEnd :=
      min k1 (fitResolution cr.«end» closRes (some jsCeilD))
    appendGap acc cr.chr retrieveStart retrieveEnd closRes
  else acc

/-- One bucket verdict of `hasUncachedRange`'s loop (also the verdict of
`pgFind` on the bucket containing the query point). -/
def hurBucketVal (t : TreeParams) (rd : Nat) (res : Int)
    (recur : PineNode → Bool) (v : PBucket PineNode) : Bool :=
  if bucketTruthy v && !(childResolutionOfBucket t rd v ≤ res) then
    match v with
    | .branch c => recur c
    | _ => false
  else !(childHasDataB v)

/-- The verified contract of one `getUncachedRange` call against
`hasUncachedRange` and the pointwise gap predicate `pointGap`: the output
extends the accumulator, stays chained below `min stop ceilEdge`, covers a
queried point exactly when the accumulator did or the point sits in a gap,
and grows (at some point) exactly when `hasUncachedRange` reports true. -/
def GurSpec (t : TreeParams) (cr : ChromRegion) (pr : QueryProps)
    (fuel : Nat) (n : PineNode) (acc : List ChromRegion) : Prop :=
  Chained (getUncachedRange t fuel n cr pr acc) ∧
  (getUncachedRange t fuel n cr pr acc = acc ∨
    lastEndLE (getUncachedRange t fuel n cr pr acc)
      (min n.stop (gapCeil t cr pr))) ∧
  (∀ x, covers acc x → covers (getUncachedRange t fuel n cr pr acc) x) ∧
  (∀ x, cr.start ≤ x → x < cr.«end» →
    (covers (getUncachedRange t fuel n cr pr acc) x ↔
      covers acc x ∨ pointGap t fuel n (effResolution cr pr) x = true)) ∧
  (hasUncachedRange t fuel n cr pr = false →
    getUncachedRange t fuel n cr pr acc = acc) ∧
  (hasUncachedRange t fuel n cr pr = true →
    ∃ x, covers (getUncachedRange t fuel n cr pr acc) x ∧ ¬ covers acc x)

/-- Unfolding of one `gurLoop` iteration through `gurBucketAcc`. -/
theorem gurLoop_cons (t : TreeParams) (rd : Nat) (res br : Int)
    (cr : ChromRegion)
    (r : PineNode → List ChromRegion → List ChromRegion) (k0 k1 : Int)
    (ks : List Int) (v : PBucket PineNode) (vs : List (PBucket PineNode))
    (acc : List ChromRegion) :
    gurLoop t rd res br cr r (k0 :: k1 :: ks) (v :: vs) acc =
      if k0 < cr.«end» then
        gurLoop t rd res br cr r (k1 :: ks) vs
          (gurBucketAcc t rd res br cr r k0 k1 v acc)
      else acc := rfl

/-- Unfolding of one `hurLoop` iteration through `hurBucketVal`. -/
theorem hurLoop_cons (t : TreeParams) (rd : Nat) (res : Int)
    (cr : ChromRegion) (r : PineNode → Bool) (k0 k1 : Int) (ks : List Int)
    (v : PBucket PineNode) (vs : List (PBucket PineNode)) :
    hurLoop t rd res cr r (k0 :: k1 :: ks) (v :: vs) =
      (if k0 < cr.«end» then
        (hurBucketVal t rd res r v || hurLoop t rd res cr r (k1 :: ks) vs)
      else false) := rfl

/-- Unfolding of one `pgFind` iteration through `hurBucketVal`. -/
theorem pgFind_cons (t : TreeParams) (rd : Nat) (res x : Int)
    (r : PineNode → Bool) (k0 k1 : Int) (ks : List Int)
    (v : PBucket PineNode) (vs : List (PBucket PineNode)) :
    pgFind t rd res x r (k0 :: k1 :: ks) (v :: vs) =
      if k0 ≤ x ∧ x < k1 then hurBucketVal t rd res r v
      else pgFind t rd res x r (k1 :: ks) vs := rfl

/-- Unfolding of `skipBuckets` on an aligned cons pair. -/
theorem skipBuckets_cons (s k0 k1 : Int) (ks : List Int)
    (v : PBucket PineNode) (vs : List (PBucket PineNode)) :
    skipBuckets s (k0 :: k1 :: ks) (v :: vs) =
      if k1 ≤ s then skipBuckets s (k1 :: ks) vs
      else (k0 :: k1 :: ks, v :: vs) := rfl

/-- Unfolding of `getUncachedRange` at positive fuel. -/
theorem getUncachedRange_succ (t : TreeParams) (fuel : Nat) (n : PineNode)
    (cr : ChromRegion) (pr : QueryProps) (acc : List ChromRegion) :
    getUncachedRange t (fuel + 1) n cr pr acc =
      gurLoop t n.reverseDepth (effResolution cr pr) (effRatio pr) cr
        (fun c a => getUncachedRange t fuel c cr pr a)
        (skipBuckets cr.start n.keys n.values).1
        (skipBuckets cr.start n.keys n.values).2 acc := rfl

/-- Unfolding of `hasUncachedRange` at positive fuel. -/
theorem hasUncachedRange_succ (t : TreeParams) (fuel : Nat) (n : PineNode)
    (cr : ChromRegion) (pr : QueryProps) :
    hasUncachedRange t (fuel + 1) n cr pr =
      hurLoop t n.reverseDepth (effResolution cr pr) cr
        (fun c => hasUncachedRange t fuel c cr pr)
        (skipBuckets cr.start n.keys n.values).1
        (skipBuckets cr.start n.keys n.values).2 := rfl

/-- Unfolding of `pointGap` at positive fuel. -/
theorem pointGap_succ (t : TreeParams) (f : Nat) (n : PineNode)
    (res x : Int) :
    pointGap t (f + 1) n res x =
      pgFind t n.reverseDepth res x (fun c => pointGap t f c res x)
        n.keys n.values := rfl

/-- Unfolding of `wfBuckets` on an aligned cons pair. -/
theorem wfBuckets_cons (w : PineNode → Bool) (rd : Nat) (k0 k1 : Int)
    (ks : List Int) (v : PBucket PineNode) (vs : List (PBucket PineNode)) :
    wfBuckets w rd (k0 :: k1 :: ks) (v :: vs) =
      ((match v with
        | .unknown => true
        | .knownEmpty => true
        | .branch c =>
          decide (rd = c.reverseDepth + 1) && decide (c.start = k0) &&
          decide (c.stop = k1) && w c
        | .leaf d => decide (rd = 0) && decide (d.start = k0)) &&
       wfBuckets w rd (k1 :: ks) vs) := rfl

theorem covers_append (l₁ l₂ : List ChromRegion) (x : Int) :
    covers (l₁ ++ l₂) x ↔ covers l₁ x ∨ covers l₂ x := by
  unfold covers
  constructor
  · rintro ⟨e, he, h⟩
    rcases List.mem_append.mp he with h1 | h2
    · exact Or.inl ⟨e, h1, h⟩
    · exact Or.inr ⟨e, h2, h⟩
  · rintro (⟨e, he, h⟩ | ⟨e, he, h⟩)
    · exact ⟨e, List.mem_append_left _ he, h⟩
    · exact ⟨e, List.mem_append_right _ he, h⟩

theorem covers_nil (x : Int) : ¬ covers ([] : List ChromRegion) x := by
  rintro ⟨e, he, -⟩
  exact absurd he (List.not_mem_nil e)

theorem covers_singleton (e : ChromRegion) (x : Int) :
    covers [e] x ↔ e.start ≤ x ∧ x < e.«end» := by
  unfold covers
  constructor
  · rintro ⟨e2, he2, h⟩
    rcases List.mem_singleton.mp he2 with rfl
    exact h
  · intro h
    exact ⟨e, List.mem_singleton_self e, h⟩

theorem getLast?_cons_ne_none (a : ChromRegion) :
    ∀ l : List ChromRegion, (a :: l).getLast? ≠ none := by
  intro l
  induction l generalizing a with
  | nil => simp
  | cons b l ih =>
    rw [List.getLast?_cons_cons]
    exact ih b

theorem getLast?_decomp :
    ∀ (l : List ChromRegion) (a : ChromRegion), l.getLast? = some a →
      l.dropLast ++ [a] = l := by
  intro l
  induction l with
  | nil => intro a h; simp at h
  | cons b l ih =>
    intro a h
    cases l with
    | nil =>
      simp only [List.getLast?_singleton, Option.some_inj] at h
      rw [← h]
      rfl
    | cons c l2 =>
      rw [List.getLast?_cons_cons] at h
      have h2 := ih a h
      calc (b :: c :: l2).dropLast ++ [a]
          = b :: ((c :: l2).dropLast ++ [a]) := by simp
      _ = b :: (c :: l2) := by rw [h2]

theorem lastEndLE_mono {l : List ChromRegion} {a b : Int}
    (h : lastEndLE l a) (hab : a ≤ b) : lastEndLE l b := by
  intro e he
  exact le_trans (h e he) hab

theorem chained_end_le :
    ∀ (l : List ChromRegion) (b : Int), Chained l → lastEndLE l b →
      ∀ e ∈ l, e.«end» ≤ b := by
  intro l
  induction l with
  | nil => intro b _ _ e he; exact absurd he (List.not_mem_nil e)
  | cons a l ih =>
    intro b hch hle e he
    cases l with
    | nil =>
      rcases List.mem_singleton.mp he with rfl
      exact hle e (by simp)
    | cons a2 l2 =>
      have hcht : Chained (a2 :: l2) :=
        ⟨fun e2 he2 => hch.1 e2 (List.mem_cons_of_mem a he2),
         (List.chain'_cons.mp hch.2).2⟩
      have hlet : lastEndLE (a2 :: l2) b := by
        intro e2 he2
        apply hle e2
        rw [List.getLast?_cons_cons]
        exact he2
      rcases List.mem_cons.mp he with rfl | he2
      · have ha2 : a2.«end» ≤ b :=
          ih b hcht hlet a2 (List.mem_cons_self a2 l2)
        have hrel : e.«end» ≤ a2.start := (List.chain'_cons.mp hch.2).1
        have ha2s : a2.start < a2.«end» :=
          hch.1 a2 (List.mem_cons_of_mem e (List.mem_cons_self a2 l2))
        omega
      · exact ih b hcht hlet e he2

theorem chained_covers_lt {l : List ChromRegion} {b x : Int}
    (hch : Chained l) (hle : lastEndLE l b) (hc : covers l x) : x < b := by
  rcases hc with ⟨e, he, h1, h2⟩
  have := chained_end_le l b hch hle e he
  omega

theorem appendGap_covers (acc : List ChromRegion) (chr : String)
    (rs re clos x : Int) (hch : Chained acc) (hle : lastEndLE acc rs)
    (hsre : rs ≤ re) :
    covers (appendGap acc chr rs re clos) x ↔
      covers acc x ∨ (rs ≤ x ∧ x < re) := by
  unfold appendGap
  cases hgl : acc.getLast? with
  | none =>
    have hnil : acc = [] := by
      cases acc with
      | nil => rfl
      | cons a l => exact absurd hgl (getLast?_cons_ne_none a l)
    subst hnil
    simp only []
    rw [covers_singleton]
    simp only [covers_nil, false_or]
  | some lastE =>
    have hdec := getLast?_decomp acc lastE hgl
    have hmem : lastE ∈ acc := by
      rw [← hdec]
      exact List.mem_append_right _ (List.mem_singleton_self _)
    have hse : lastE.start < lastE.«end» := hch.1 lastE hmem
    have hend : lastE.«end» ≤ rs := hle lastE hgl
    simp only []
    split
    · next hgu =>
      obtain ⟨-, hrs⟩ := hgu
      rw [covers_append, covers_singleton]
      have hacc : covers acc x ↔
          covers acc.dropLast x ∨
            (lastE.start ≤ x ∧ x < lastE.«end») := by
        conv_lhs => rw [← hdec]
        rw [covers_append, covers_singleton]
      rw [hacc]
      show covers acc.dropLast x ∨ (lastE.start ≤ x ∧ x < re) ↔ _
      have harith : (lastE.start ≤ x ∧ x < re) ↔
          ((lastE.start ≤ x ∧ x < lastE.«end») ∨ (rs ≤ x ∧ x < re)) := by
        omega
      rw [harith]
      exact (or_assoc).symm
    · next hgu =>
      rw [covers_append, covers_singleton]

theorem appendGap_chained (acc : List ChromRegion) (chr : String)
    (rs re clos : Int) (hch : Chained acc) (hle : lastEndLE acc rs)
    (hlt : rs < re) : Chained (appendGap acc chr rs re clos) := by
  unfold appendGap
  cases hgl : acc.getLast? with
  | none =>
    simp only []
    refine ⟨?_, List.chain'_singleton _⟩
    intro e he
    rcases List.mem_singleton.mp he with rfl
    exact hlt
  | some lastE =>
    have hdec := getLast?_decomp acc lastE hgl
    have hmem : lastE ∈ acc := by
      rw [← hdec]
      exact List.mem_append_right _ (List.mem_singleton_self _)
    have hse : lastE.start < lastE.«end» := hch.1 lastE hmem
    have hend : lastE.«end» ≤ rs := hle lastE hgl
    simp only []
    split
    · next hgu =>
      obtain ⟨-, hrs⟩ := hgu
      have hchain :
          (acc.dropLast ++ [lastE]).Chain' (fun a b => a.«end» ≤ b.start) := by
        rw [hdec]
        exact hch.2
      obtain ⟨c1, c2, hrel⟩ := List.chain'_append.mp hchain
      refine ⟨?_, ?_⟩
      · intro e he
        rcases List.mem_append.mp he with h1 | h2
        · exact hch.1 e (by rw [← hdec]; exact List.mem_append_left _ h1)
        · rcases List.mem_singleton.mp h2 with rfl
          show lastE.start < re
          omega
      · refine List.chain'_append.mpr ⟨c1, List.chain'_singleton _, ?_⟩
        intro a ha b hb
        simp only [List.head?_cons, Option.mem_def, Option.some_inj] at hb
        have := hrel a ha lastE (by simp)
        rw [← hb]
        exact this
    · next hgu =>
      refine ⟨?_, ?_⟩
      · intro e he
        rcases List.mem_append.mp he with h1 | h2
        · exact hch.1 e h1
        · rcases List.mem_singleton.mp h2 with rfl
          exact hlt
      · refine List.chain'_append.mpr ⟨hch.2, List.chain'_singleton _, ?_⟩
        intro a ha b hb
        simp only [List.head?_cons, Option.mem_def, Option.some_inj] at hb
        have ha2 : a = lastE := by
          simp only [Option.mem_def] at ha
          rw [hgl] at ha
          exact (Option.some_inj.mp ha).symm
        rw [← hb, ha2]
        exact hle lastE hgl

theorem appendGap_last_end (acc : List ChromRegion) (chr : String)
    (rs re clos : Int) :
    ∀ e, (appendGap acc chr rs re clos).getLast? = some e →
      e.«end» = re := by
  unfold appendGap
  cases hgl : acc.getLast? with
  | none =>
    simp only []
    intro e he
    simp only [List.getLast?_singleton, Option.some_inj] at he
    rw [← he]
  | some lastE =>
    simp only []
    split
    · intro e he
      rw [List.getLast?_concat] at he
      rw [← Option.some_inj.mp he]
    · intro e he
      rw [List.getLast?_concat] at he
      rw [← Option.some_inj.mp he]

theorem strictIncB_head_le_getLast :
    ∀ (ks : List Int) (k kl : Int), strictIncB (k :: ks) = true →
      (k :: ks).getLast? = some kl → k ≤ kl := by
  intro ks
  induction ks with
  | nil =>
    intro k kl _ h
    simp only [List.getLast?_singleton, Option.some_inj] at h
    omega
  | cons k1 ks ih =>
    intro k kl hs h
    rw [List.getLast?_cons_cons] at h
    have hlt : k < k1 ∧ strictIncB (k1 :: ks) = true := by
      simpa [strictIncB, Bool.and_eq_true] using hs
    have := ih k1 kl hlt.2 h
    omega

theorem pgFind_false_of_lt (t : TreeParams) (rd : Nat) (res x : Int)
    (r : PineNode → Bool) :
    ∀ (vs : List (PBucket PineNode)) (ks : List Int),
      strictIncB ks = true → (∀ k, ks.head? = some k → x < k) →
      pgFind t rd res x r ks vs = false := by
  intro vs
  induction vs with
  | nil =>
    intro ks _ _
    rcases ks with _ | ⟨k0, _ | ⟨k1, ks2⟩⟩ <;> rfl
  | cons v vs ih =>
    intro ks hs hh
    rcases ks with _ | ⟨k0, _ | ⟨k1, ks2⟩⟩
    · rfl
    · rfl
    · have hx0 : x < k0 := hh k0 rfl
      have hcons : k0 < k1 ∧ strictIncB (k1 :: ks2) = true := by
        simpa [strictIncB, Bool.and_eq_true] using hs
      rw [pgFind_cons, if_neg (by omega)]
      refine ih (k1 :: ks2) hcons.2 ?_
      intro k hk
      simp only [List.head?_cons, Option.some_inj] at hk
      omega

theorem pgFind_false_of_ge (t : TreeParams) (rd : Nat) (res x : Int)
    (r : PineNode → Bool) :
    ∀ (vs : List (PBucket PineNode)) (ks : List Int) (kl : Int),
      strictIncB ks = true → ks.getLast? = some kl → kl ≤ x →
      pgFind t rd res x r ks vs = false := by
  intro vs
  induction vs with
  | nil =>
    intro ks kl _ _ _
    rcases ks with _ | ⟨k0, _ | ⟨k1, ks2⟩⟩ <;> rfl
  | cons v vs ih =>
    intro ks kl hs hl hx
    rcases ks with _ | ⟨k0, _ | ⟨k1, ks2⟩⟩
    · rfl
    · rfl
    · have hcons : k0 < k1 ∧ strictIncB (k1 :: ks2) = true := by
        simpa [strictIncB, Bool.and_eq_true] using hs
      rw [List.getLast?_cons_cons] at hl
      have hk1 : k1 ≤ kl := strictIncB_head_le_getLast ks2 k1 kl hcons.2 hl
      rw [pgFind_cons, if_neg (by omega)]
      exact ih (k1 :: ks2) kl hcons.2 hl hx

theorem skipBuckets_wf (w : PineNode → Bool) (rd : Nat) (s : Int) :
    ∀ (vs : List (PBucket PineNode)) (ks : List Int),
      wfBuckets w rd ks vs = true →
      wfBuckets w rd (skipBuckets s ks vs).1 (skipBuckets s ks vs).2 =
        true := by
  intro vs
  induction vs with
  | nil =>
    intro ks h
    rcases ks with _ | ⟨k0, _ | ⟨k1, ks2⟩⟩ <;> exact h
  | cons v vs ih =>
    intro ks h
    rcases ks with _ | ⟨k0, _ | ⟨k1, ks2⟩⟩
    · exact h
    · exact h
    · rw [skipBuckets_cons]
      by_cases hk : k1 ≤ s
      · rw [if_pos hk]
        rw [wfBuckets_cons, Bool.and_eq_true] at h
        exact ih (k1 :: ks2) h.2
      · rw [if_neg hk]
        exact h

theorem skipBuckets_strictInc (s : Int) :
    ∀ (vs : List (PBucket PineNode)) (ks : List Int),
      strictIncB ks = true → strictIncB (skipBuckets s ks vs).1 = true := by
  intro vs
  induction vs with
  | nil =>
    intro ks h
    rcases ks with _ | ⟨k0, _ | ⟨k1, ks2⟩⟩ <;> exact h
  | cons v vs ih =>
    intro ks h
    rcases ks with _ | ⟨k0, _ | ⟨k1, ks2⟩⟩
    · exact h
    · exact h
    · rw [skipBuckets_cons]
      by_cases hk : k1 ≤ s
      · rw [if_pos hk]
        have hcons : k0 < k1 ∧ strictIncB (k1 :: ks2) = true := by
          simpa [strictIncB, Bool.and_eq_true] using h
        exact ih (k1 :: ks2) hcons.2
      · rw [if_neg hk]
        exact h

theorem skipBuckets_getLast (s : Int) :
    ∀ (vs : List (PBucket PineNode)) (ks : List Int),
      (skipBuckets s ks vs).1.getLast? = ks.getLast? := by
  intro vs
  induction vs with
  | nil =>
    intro ks
    rcases ks with _ | ⟨k0, _ | ⟨k1, ks2⟩⟩ <;> rfl
  | cons v vs ih =>
    intro ks
    rcases ks with _ | ⟨k0, _ | ⟨k1, ks2⟩⟩
    · rfl
    · rfl
    · rw [skipBuckets_cons]
      by_cases hk : k1 ≤ s
      · rw [if_pos hk, ih (k1 :: ks2), List.getLast?_cons_cons]
      · rw [if_neg hk]

theorem skipBuckets_head_ge (s : Int) :
    ∀ (vs : List (PBucket PineNode)) (ks : List Int) (k0 h2 : Int),
      strictIncB ks = true → ks.head? = some k0 →
      (skipBuckets s ks vs).1.head? = some h2 → k0 ≤ h2 := by
  intro vs
  induction vs with
  | nil =>
    intro ks k0 h2 _ hh hh2
    rcases ks with _ | ⟨ka, _ | ⟨kb, ks2⟩⟩
    · simp at hh
    · have hh3 : ka = k0 := Option.some_inj.mp hh
      have hh4 : ka = h2 := Option.some_inj.mp hh2
      omega
    · have hh3 : ka = k0 := Option.some_inj.mp hh
      have hh4 : ka = h2 := Option.some_inj.mp hh2
      omega
  | cons v vs ih =>
    intro ks k0 h2 hs hh hh2
    rcases ks with _ | ⟨ka, _ | ⟨kb, ks2⟩⟩
    · simp at hh
    · have hh3 : ka = k0 := Option.some_inj.mp hh
      have hh4 : ka = h2 := Option.some_inj.mp hh2
      omega
    · simp only [List.head?_cons, Option.some_inj] at hh
      rw [skipBuckets_cons] at hh2
      have hcons : ka < kb ∧ strictIncB (kb :: ks2) = true := by
        simpa [strictIncB, Bool.and_eq_true] using hs
      by_cases hk : kb ≤ s
      · rw [if_pos hk] at hh2
        have := ih (kb :: ks2) kb h2 hcons.2 rfl hh2
        omega
      · rw [if_neg hk] at hh2
        simp only [List.head?_cons, Option.some_inj] at hh2
        omega

theorem skipBuckets_snd_gt (w : PineNode → Bool) (rd : Nat) (s : Int) :
    ∀ (vs : List (PBucket PineNode)) (ks : List Int) (k0 k1 : Int)
      (ks2 : List Int),
      wfBuckets w rd ks vs = true →
      (skipBuckets s ks vs).1 = k0 :: k1 :: ks2 → s < k1 := by
  intro vs
  induction vs with
  | nil =>
    intro ks k0 k1 ks2 hw hh
    rcases ks with _ | ⟨ka, _ | ⟨kb, ks3⟩⟩
    · have hh2 : ([] : List Int) = k0 :: k1 :: ks2 := hh
      simp at hh2
    · have hh2 : [ka] = k0 :: k1 :: ks2 := hh
      simp at hh2
    · exact absurd hw (by exact fun h => Bool.noConfusion h)
  | cons v vs ih =>
    intro ks k0 k1 ks2 hw hh
    rcases ks with _ | ⟨ka, _ | ⟨kb, ks3⟩⟩
    · have hh2 : ([] : List Int) = k0 :: k1 :: ks2 := hh
      simp at hh2
    · have hh2 : [ka] = k0 :: k1 :: ks2 := hh
      simp at hh2
    · rw [skipBuckets_cons] at hh
      by_cases hk : kb ≤ s
      · rw [if_pos hk] at hh
        rw [wfBuckets_cons, Bool.and_eq_true] at hw
        exact ih (kb :: ks3) k0 k1 ks2 hw.2 hh
      · rw [if_neg hk] at hh
        have hh2 : ka :: kb :: ks3 = k0 :: k1 :: ks2 := hh
        have : kb = k1 := by
          simp only [List.cons.injEq] at hh2
          exact hh2.2.1
        omega

theorem pgFind_skipBuckets (t : TreeParams) (rd : Nat) (res x s : Int)
    (r : PineNode → Bool) (hsx : s ≤ x) :
    ∀ (vs : List (PBucket PineNode)) (ks : List Int),
      pgFind t rd res x r ks vs =
        pgFind t rd res x r (skipBuckets s ks vs).1
          (skipBuckets s ks vs).2 := by
  intro vs
  induction vs with
  | nil =>
    intro ks
    rcases ks with _ | ⟨k0, _ | ⟨k1, ks2⟩⟩ <;> rfl
  | cons v vs ih =>
    intro ks
    rcases ks with _ | ⟨k0, _ | ⟨k1, ks2⟩⟩
    · rfl
    · rfl
    · rw [skipBuckets_cons]
      by_cases hk : k1 ≤ s
      · rw [if_pos hk, pgFind_cons, if_neg (by omega)]
        exact ih (k1 :: ks2)
      · rw [if_neg hk]

theorem wfBuckets_shape (w : PineNode → Bool) (rd : Nat) :
    ∀ (ks : List Int) (vs : List (PBucket PineNode)),
      wfBuckets w rd ks vs = true →
      (∃ k, ks = [k] ∧ vs = []) ∨
      (∃ k0 k1 ks2 v vs2, ks = k0 :: k1 :: ks2 ∧ vs = v :: vs2) := by
  intro ks vs h
  rcases ks with _ | ⟨k0, _ | ⟨k1, ks2⟩⟩ <;> rcases vs with _ | ⟨v, vs2⟩
  · exact absurd h (by exact fun h2 => Bool.noConfusion h2)
  · exact absurd h (by exact fun h2 => Bool.noConfusion h2)
  · exact Or.inl ⟨k0, rfl, rfl⟩
  · exact absurd h (by exact fun h2 => Bool.noConfusion h2)
  · exact absurd h (by exact fun h2 => Bool.noConfusion h2)
  · exact Or.inr ⟨k0, k1, ks2, v, vs2, rfl, rfl⟩

theorem closestResolution_pos (t : TreeParams) (hsf : 2 ≤ t.scalingFactor)
    (hlsf : 1 ≤ t.leafScalingFactor) (num den : Int) :
    0 < _getClosestResolution t num den := by
  unfold _getClosestResolution
  split
  · have h1 : (0 : Int) < t.scalingFactor ^
        ilogFloor t.scalingFactor num (den * t.leafScalingFactor) :=
      pow_pos (by omega) _
    have h2 : (0 : Int) < t.leafScalingFactor := by omega
    exact mul_pos h1 h2
  · norm_num

theorem effResolution_some (cr2 : ChromRegion) (pr : QueryProps) (rv : Int)
    (h : cr2.resolution = some rv) (hr : rv ≠ 0) :
    effResolution cr2 pr = rv := by
  unfold effResolution orDefault
  rw [h]
  simp only []
  rw [if_neg hr]

theorem pointGap_false_outside (t : TreeParams) (res x : Int) :
    ∀ (f : Nat) (c : PineNode), wfB f c = true →
      (x < c.start ∨ c.stop ≤ x) → pointGap t f c res x = false := by
  intro f c hwf hout
  cases f with
  | zero => rfl
  | succ f =>
    simp only [wfB, Bool.and_eq_true, decide_eq_true_eq] at hwf
    obtain ⟨⟨⟨hhead, hlast⟩, hinc⟩, hwfb⟩ := hwf
    rw [pointGap_succ]
    rcases hout with h | h
    · refine pgFind_false_of_lt t c.reverseDepth res x _ c.values c.keys
        hinc ?_
      intro k hk
      rw [hhead] at hk
      have := Option.some_inj.mp hk
      omega
    · exact pgFind_false_of_ge t c.reverseDepth res x _ c.values c.keys
        c.stop hinc hlast h

theorem hurLoop_head_stop (t : TreeParams) (rd : Nat) (res : Int)
    (cr : ChromRegion) (r : PineNode → Bool) (k : Int) (ks : List Int)
    (vs : List (PBucket PineNode)) (hk : cr.«end» ≤ k) :
    hurLoop t rd res cr r (k :: ks) vs = false := by
  rcases ks with _ | ⟨k1, ks2⟩ <;> rcases vs with _ | ⟨v, vs2⟩
  · rfl
  · rfl
  · rfl
  · rw [hurLoop_cons, if_neg (by omega)]

/-- The facts shared by every gap-reporting bucket iteration: the appended
grid-clipped range is nonempty, chains onto the accumulator, covers every
queried point of the bucket window, and nothing outside it. -/
theorem gapCase_spec (t : TreeParams) (cr : ChromRegion) (pr : QueryProps)
    (hsf : 2 ≤ t.scalingFactor) (hlsf : 1 ≤ t.leafScalingFactor)
    (hcr : cr.start < cr.«end») (k0 k1 : Int) (acc : List ChromRegion)
    (hk0 : k0 < cr.«end») (hk1 : cr.start < k1) (hk01 : k0 < k1)
    (hch : Chained acc)
    (hle : lastEndLE acc (max k0 (gapFloor t cr pr))) :
    Chained (appendGap acc cr.chr (max k0 (gapFloor t cr pr))
        (min k1 (gapCeil t cr pr)) (gapClos t cr pr)) ∧
    lastEndLE (appendGap acc cr.chr (max k0 (gapFloor t cr pr))
        (min k1 (gapCeil t cr pr)) (gapClos t cr pr))
      (min k1 (gapCeil t cr pr)) ∧
    (∀ x, covers acc x →
      covers (appendGap acc cr.chr (max k0 (gapFloor t cr pr))
        (min k1 (gapCeil t cr pr)) (gapClos t cr pr)) x) ∧
    (∀ x, cr.start ≤ x → x < cr.«end» → k0 ≤ x → x < k1 →
      covers (appendGap acc cr.chr (max k0 (gapFloor t cr pr))
        (min k1 (gapCeil t cr pr)) (gapClos t cr pr)) x) ∧
    (∀ x, x < k0 ∨ k1 ≤ x →
      (covers (appendGap acc cr.chr (max k0 (gapFloor t cr pr))
        (min k1 (gapCeil t cr pr)) (gapClos t cr pr)) x ↔ covers acc x)) ∧
    (∃ x, covers (appendGap acc cr.chr (max k0 (gapFloor t cr pr))
        (min k1 (gapCeil t cr pr)) (gapClos t cr pr)) x ∧
      ¬ covers acc x) := by
  have hclos : 0 < gapClos t cr pr := closestResolution_pos t hsf hlsf _ _
  have hFS : gapFloor t cr pr ≤ cr.start := fitResolution_floor_le _ _ hclos
  have hFE : cr.«end» ≤ gapCeil t cr pr := fitResolution_le_ceil _ _ hclos
  have hrs : max k0 (gapFloor t cr pr) < min k1 (gapCeil t cr pr) := by
    exact max_lt (lt_min hk01 (by omega)) (lt_min (by omega) (by omega))
  have hcov := fun x => appendGap_covers acc cr.chr
    (max k0 (gapFloor t cr pr)) (min k1 (gapCeil t cr pr))
    (gapClos t cr pr) x hch hle (le_of_lt hrs)
  refine ⟨appendGap_chained _ _ _ _ _ hch hle hrs, ?_, ?_, ?_, ?_, ?_⟩
  · intro e he
    exact le_of_eq (appendGap_last_end _ _ _ _ _ e he)
  · intro x hx
    exact (hcov x).mpr (Or.inl hx)
  · intro x hx1 hx2 hx3 hx4
    exact (hcov x).mpr (Or.inr ⟨max_le hx3 (by omega), lt_min hx4 (by omega)⟩)
  · intro x hout
    rw [hcov x]
    have hnot : ¬(max k0 (gapFloor t cr pr) ≤ x ∧
        x < min k1 (gapCeil t cr pr)) := by
      rintro ⟨ha, hb⟩
      have h1 : k0 ≤ x := le_trans (le_max_left _ _) ha
      have h2 : x < k1 := lt_of_lt_of_le hb (min_le_left _ _)
      omega
    exact or_iff_left hnot
  · refine ⟨max k0 (gapFloor t cr pr),
      (hcov _).mpr (Or.inr ⟨le_refl _, hrs⟩), ?_⟩
    intro hc
    exact absurd (chained_covers_lt hch hle hc) (lt_irrefl _)

/-- One bucket iteration of the two cache-query walks, verified against
each other: the accumulator update `gurBucketAcc` grows exactly where the
verdict `hurBucketVal` is true, covering the queried points of the bucket
window that the pointwise verdict accepts. -/
theorem gurStep_spec (t : TreeParams) (cr : ChromRegion) (pr : QueryProps)
    (f : Nat) (hsf : 2 ≤ t.scalingFactor) (hlsf : 1 ≤ t.leafScalingFactor)
    (hcr : cr.start < cr.«end»)
    (ih : ∀ (c : PineNode) (acc2 : List ChromRegion), wfB f c = true →
      Chained acc2 → lastEndLE acc2 (max c.start (gapFloor t cr pr)) →
      GurSpec t cr pr f c acc2)
    (rd : Nat) (k0 k1 : Int) (v : PBucket PineNode) (acc : List ChromRegion)
    (hbr : ∀ c, v = .branch c →
      rd = c.reverseDepth + 1 ∧ c.start = k0 ∧ c.stop = k1 ∧ wfB f c = true)
    (hk0 : k0 < cr.«end») (hk1 : cr.start < k1) (hk01 : k0 < k1)
    (hch : Chained acc)
    (hle : lastEndLE acc (max k0 (gapFloor t cr pr)))
    (A : List ChromRegion)
    (hA : A = gurBucketAcc t rd (effResolution cr pr) (effRatio pr) cr
      (fun c a => getUncachedRange t f c cr pr a) k0 k1 v acc) :
    Chained A ∧
    (A = acc ∨ lastEndLE A (min k1 (gapCeil t cr pr))) ∧
    (∀ x, covers acc x → covers A x) ∧
    (∀ x, cr.start ≤ x → x < cr.«end» → k0 ≤ x → x < k1 →
      (covers A x ↔ covers acc x ∨
        hurBucketVal t rd (effResolution cr pr)
          (fun c => pointGap t f c (effResolution cr pr) x) v = true)) ∧
    (∀ x, x < k0 ∨ k1 ≤ x → cr.start ≤ x → x < cr.«end» →
      (covers A x ↔ covers acc x)) ∧
    (hurBucketVal t rd (effResolution cr pr)
        (fun c => hasUncachedRange t f c cr pr) v = false → A = acc) ∧
    (hurBucketVal t rd (effResolution cr pr)
        (fun c => hasUncachedRange t f c cr pr) v = true →
      ∃ x, covers A x ∧ ¬ covers acc x) := by
  rcases v with _ | _ | d | c
  · -- Unknown bucket: always a reported gap.
    have hgA : A = appendGap acc cr.chr (max k0 (gapFloor t cr pr))
        (min k1 (gapCeil t cr pr)) (gapClos t cr pr) := hA
    subst hgA
    obtain ⟨g1, g2, g3, g4, g5, g6⟩ :=
      gapCase_spec t cr pr hsf hlsf hcr k0 k1 acc hk0 hk1 hk01 hch hle
    refine ⟨g1, Or.inr g2, g3, ?_, ?_, ?_, ?_⟩
    · intro x hx1 hx2 hx3 hx4
      constructor
      · intro _
        exact Or.inr rfl
      · intro _
        exact g4 x hx1 hx2 hx3 hx4
    · intro x hout hx1 hx2
      exact g5 x hout
    · intro h
      exact Bool.noConfusion h
    · intro _
      exact g6
  · -- KnownEmpty bucket: confirmed data, no change.
    have hgA : A = acc := hA
    subst hgA
    refine ⟨hch, Or.inl rfl, fun x h => h, ?_, ?_, fun _ => rfl, ?_⟩
    · intro x hx1 hx2 hx3 hx4
      constructor
      · intro h
        exact Or.inl h
      · rintro (h | h)
        · exact h
        · exact Bool.noConfusion h
    · intro x hout hx1 hx2
      exact Iff.rfl
    · intro h
      exact Bool.noConfusion h
  · -- Leaf bucket.
    have hunf : gurBucketAcc t rd (effResolution cr pr) (effRatio pr) cr
        (fun c a => getUncachedRange t f c cr pr a) k0 k1
        (PBucket.leaf d) acc =
        if (bucketTruthy (PBucket.leaf d) &&
            !(childResolutionOfBucket t rd (PBucket.leaf d) ≤
              effResolution cr pr))
        then acc
        else if !d.hasData then
          appendGap acc cr.chr (max k0 (gapFloor t cr pr))
            (min k1 (gapCeil t cr pr)) (gapClos t cr pr)
        else acc := rfl
    have hHVunf : ∀ (r2 : PineNode → Bool),
        hurBucketVal t rd (effResolution cr pr) r2 (PBucket.leaf d) =
          if (bucketTruthy (PBucket.leaf d) &&
              !(childResolutionOfBucket t rd (PBucket.leaf d) ≤
                effResolution cr pr))
          then false else !d.hasData := fun _ => rfl
    cases hC : (bucketTruthy (PBucket.leaf d) &&
        !(childResolutionOfBucket t rd (PBucket.leaf d) ≤
          effResolution cr pr)) with
    | true =>
      rw [hunf, if_pos hC] at hA
      subst hA
      refine ⟨hch, Or.inl rfl, fun x h => h, ?_, ?_, fun _ => rfl, ?_⟩
      · intro x hx1 hx2 hx3 hx4
        rw [hHVunf _, if_pos hC]
        constructor
        · intro h
          exact Or.inl h
        · rintro (h | h)
          · exact h
          · exact absurd h (by simp)
      · intro x hout hx1 hx2
        exact Iff.rfl
      · intro h
        rw [hHVunf _, if_pos hC] at h
        exact absurd h (by simp)
    | false =>
      have hCn : ¬((bucketTruthy (PBucket.leaf d) &&
          !(childResolutionOfBucket t rd (PBucket.leaf d) ≤
            effResolution cr pr)) = true) := by
        rw [hC]
        simp
      rw [hunf, if_neg hCn] at hA
      cases hd : d.hasData with
      | true =>
        rw [hd] at hA
        have hgA : A = acc := hA
        subst hgA
        refine ⟨hch, Or.inl rfl, fun x h => h, ?_, ?_, fun _ => rfl, ?_⟩
        · intro x hx1 hx2 hx3 hx4
          rw [hHVunf _, if_neg hCn, hd]
          constructor
          · intro h
            exact Or.inl h
          · rintro (h | h)
            · exact h
            · exact absurd h (by simp)
        · intro x hout hx1 hx2
          exact Iff.rfl
        · intro h
          rw [hHVunf _, if_neg hCn, hd] at h
          exact absurd h (by simp)
      | false =>
        rw [hd] at hA
        have hgA : A = appendGap acc cr.chr (max k0 (gapFloor t cr pr))
            (min k1 (gapCeil t cr pr)) (gapClos t cr pr) := hA
        subst hgA
        obtain ⟨g1, g2, g3, g4, g5, g6⟩ :=
          gapCase_spec t cr pr hsf hlsf hcr k0 k1 acc hk0 hk1 hk01 hch hle
        refine ⟨g1, Or.inr g2, g3, ?_, ?_, ?_, ?_⟩
        · intro x hx1 hx2 hx3 hx4
          rw [hHVunf _, if_neg hCn, hd]
          constructor
          · intro _
            exact Or.inr rfl
          · intro _
            exact g4 x hx1 hx2 hx3 hx4
        · intro x hout hx1 hx2
          exact g5 x hout
        · intro h
          rw [hHVunf _, if_neg hCn, hd] at h
          exact absurd h (by simp)
        · intro _
          exact g6
  · -- Branch bucket.
    obtain ⟨hrd, hcs, hcsp, hwfc⟩ := hbr c rfl
    have hunf : gurBucketAcc t rd (effResolution cr pr) (effRatio pr) cr
        (fun c2 a => getUncachedRange t f c2 cr pr a) k0 k1
        (PBucket.branch c) acc =
        if (bucketTruthy (PBucket.branch c) &&
            !(childResolutionOfBucket t rd (PBucket.branch c) ≤
              effResolution cr pr))
        then getUncachedRange t f c cr pr acc
        else if !c.hasData then
          appendGap acc cr.chr (max k0 (gapFloor t cr pr))
            (min k1 (gapCeil t cr pr)) (gapClos t cr pr)
        else acc := rfl
    have hHVunf : ∀ (r2 : PineNode → Bool),
        hurBucketVal t rd (effResolution cr pr) r2 (PBucket.branch c) =
          if (bucketTruthy (PBucket.branch c) &&
              !(childResolutionOfBucket t rd (PBucket.branch c) ≤
                effResolution cr pr))
          then r2 c else !c.hasData := fun _ => rfl
    cases hC : (bucketTruthy (PBucket.branch c) &&
        !(childResolutionOfBucket t rd (PBucket.branch c) ≤
          effResolution cr pr)) with
    | true =>
      rw [hunf, if_pos hC] at hA
      subst hA
      have hle2 : lastEndLE acc (max c.start (gapFloor t cr pr)) := by
        rw [hcs]
        exact hle
      have spec := ih c acc hwfc hch hle2
      unfold GurSpec at spec
      obtain ⟨s1, s2, s3, s4, s5, s6⟩ := spec
      refine ⟨s1, ?_, s3, ?_, ?_, ?_, ?_⟩
      · rw [← hcsp]
        exact s2
      · intro x hx1 hx2 hx3 hx4
        rw [hHVunf _, if_pos hC]
        exact s4 x hx1 hx2
      · intro x hout hx1 hx2
        rw [s4 x hx1 hx2]
        have hpg : pointGap t f c (effResolution cr pr) x = false :=
          pointGap_false_outside t (effResolution cr pr) x f c hwfc
            (by rw [hcs, hcsp]; exact hout)
        rw [hpg]
        exact or_iff_left (by simp)
      · intro h
        rw [hHVunf _, if_pos hC] at h
        exact s5 h
      · intro h
        rw [hHVunf _, if_pos hC] at h
        exact s6 h
    | false =>
      have hCn : ¬((bucketTruthy (PBucket.branch c) &&
          !(childResolutionOfBucket t rd (PBucket.branch c) ≤
            effResolution cr pr)) = true) := by
        rw [hC]
        simp
      rw [hunf, if_neg hCn] at hA
      cases hd : c.hasData with
      | true =>
        rw [hd] at hA
        have hgA : A = acc := hA
        subst hgA
        refine ⟨hch, Or.inl rfl, fun x h => h, ?_, ?_, fun _ => rfl, ?_⟩
        · intro x hx1 hx2 hx3 hx4
          rw [hHVunf _, if_neg hCn, hd]
          constructor
          · intro h
            exact Or.inl h
          · rintro (h | h)
            · exact h
            · exact absurd h (by simp)
        · intro x hout hx1 hx2
          exact Iff.rfl
        · intro h
          rw [hHVunf _, if_neg hCn, hd] at h
          exact absurd h (by simp)
      | false =>
        rw [hd] at hA
        have hgA : A = appendGap acc cr.chr (max k0 (gapFloor t cr pr))
            (min k1 (gapCeil t cr pr)) (gapClos t cr pr) := hA
        subst hgA
        obtain ⟨g1, g2, g3, g4, g5, g6⟩ :=
          gapCase_spec t cr pr hsf hlsf hcr k0 k1 acc hk0 hk1 hk01 hch hle
        refine ⟨g1, Or.inr g2, g3, ?_, ?_, ?_, ?_⟩
        · intro x hx1 hx2 hx3 hx4
          rw [hHVunf _, if_neg hCn, hd]
          constructor
          · intro _
            exact Or.inr rfl
          · intro _
            exact g4 x hx1 hx2 hx3 hx4
        · intro x hout hx1 hx2
          exact g5 x hout
        · intro h
          rw [hHVunf _, if_neg hCn, hd] at h
          exact absurd h (by simp)
        · intro _
          exact g6

/-- The processing loop of the two cache queries, verified bucket list by
bucket list (`ih` is the node-level contract for child recursion). -/
theorem gurLoop_spec (t : TreeParams) (cr : ChromRegion) (pr : QueryProps)
    (f : Nat) (hsf : 2 ≤ t.scalingFactor) (hlsf : 1 ≤ t.leafScalingFactor)
    (hcr : cr.start < cr.«end»)
    (ih : ∀ (c : PineNode) (acc2 : List ChromRegion), wfB f c = true →
      Chained acc2 → lastEndLE acc2 (max c.start (gapFloor t cr pr)) →
      GurSpec t cr pr f c acc2)
    (rd : Nat) :
    ∀ (vs : List (PBucket PineNode)) (ks : List Int)
      (acc : List ChromRegion),
      wfBuckets (fun c => wfB f c) rd ks vs = true →
      strictIncB ks = true →
      (∀ a b l, ks = a :: b :: l → cr.start < b) →
      Chained acc →
      (∀ k, ks.head? = some k →
        lastEndLE acc (max k (gapFloor t cr pr))) →
      Chained (gurLoop t rd (effResolution cr pr) (effRatio pr) cr
          (fun c a => getUncachedRange t f c cr pr a) ks vs acc) ∧
      (∀ kl, ks.getLast? = some kl →
        (gurLoop t rd (effResolution cr pr) (effRatio pr) cr
            (fun c a => getUncachedRange t f c cr pr a) ks vs acc = acc ∨
          lastEndLE (gurLoop t rd (effResolution cr pr) (effRatio pr) cr
              (fun c a => getUncachedRange t f c cr pr a) ks vs acc)
            (min kl (gapCeil t cr pr)))) ∧
      (∀ x, covers acc x →
        covers (gurLoop t rd (effResolution cr pr) (effRatio pr) cr
          (fun c a => getUncachedRange t f c cr pr a) ks vs acc) x) ∧
      (∀ x, cr.start ≤ x → x < cr.«end» →
        (covers (gurLoop t rd (effResolution cr pr) (effRatio pr) cr
            (fun c a => getUncachedRange t f c cr pr a) ks vs acc) x ↔
          covers acc x ∨
            pgFind t rd (effResolution cr pr) x
              (fun c => pointGap t f c (effResolution cr pr) x) ks vs =
              true)) ∧
      (hurLoop t rd (effResolution cr pr) cr
          (fun c => hasUncachedRange t f c cr pr) ks vs = false →
        gurLoop t rd (effResolution cr pr) (effRatio pr) cr
          (fun c a => getUncachedRange t f c cr pr a) ks vs acc = acc) ∧
      (hurLoop t rd (effResolution cr pr) cr
          (fun c => hasUncachedRange t f c cr pr) ks vs = true →
        ∃ x, covers (gurLoop t rd (effResolution cr pr) (effRatio pr) cr
            (fun c a => getUncachedRange t f c cr pr a) ks vs acc) x ∧
          ¬ covers acc x) := by
  intro vs
  induction vs with
  | nil =>
    intro ks acc hwfb hinc hsnd hch hle
    rcases ks with _ | ⟨k0, _ | ⟨k1, ks2⟩⟩
    · exact absurd hwfb (fun h => Bool.noConfusion h)
    · refine ⟨hch, fun kl _ => Or.inl rfl, fun x h => h, ?_, fun _ => rfl,
        fun hT => Bool.noConfusion hT⟩
      intro x hx1 hx2
      constructor
      · intro h
        exact Or.inl h
      · rintro (h | h)
        · exact h
        · exact Bool.noConfusion h
    · exact absurd hwfb (fun h => Bool.noConfusion h)
  | cons v vs ihl =>
    intro ks acc hwfb hinc hsnd hch hle
    rcases ks with _ | ⟨k0, _ | ⟨k1, ks2⟩⟩
    · exact absurd hwfb (fun h => Bool.noConfusion h)
    · exact absurd hwfb (fun h => Bool.noConfusion h)
    · rw [wfBuckets_cons, Bool.and_eq_true] at hwfb
      obtain ⟨hbk, hwfb2⟩ := hwfb
      have hbkP : ∀ c, v = .branch c →
          rd = c.reverseDepth + 1 ∧ c.start = k0 ∧ c.stop = k1 ∧
            wfB f c = true := by
        intro c hv
        subst hv
        have hbk2 : (decide (rd = c.reverseDepth + 1) &&
            decide (c.start = k0) && decide (c.stop = k1) && wfB f c) =
            true := hbk
        simp only [Bool.and_eq_true, decide_eq_true_eq] at hbk2
        exact ⟨hbk2.1.1.1, hbk2.1.1.2, hbk2.1.2, hbk2.2⟩
      have hks01 : k0 < k1 ∧ strictIncB (k1 :: ks2) = true := by
        simpa [strictIncB, Bool.and_eq_true] using hinc
      have hsnd0 : cr.start < k1 := hsnd k0 k1 ks2 rfl
      have hle0 : lastEndLE acc (max k0 (gapFloor t cr pr)) := hle k0 rfl
      by_cases hstop : k0 < cr.«end»
      · set A2 := gurBucketAcc t rd (effResolution cr pr) (effRatio pr) cr
          (fun c a => getUncachedRange t f c cr pr a) k0 k1 v acc with hA2
        have hg : gurLoop t rd (effResolution cr pr) (effRatio pr) cr
            (fun c a => getUncachedRange t f c cr pr a)
            (k0 :: k1 :: ks2) (v :: vs) acc =
            gurLoop t rd (effResolution cr pr) (effRatio pr) cr
              (fun c a => getUncachedRange t f c cr pr a)
              (k1 :: ks2) vs A2 := by
          rw [gurLoop_cons, if_pos hstop]
        have hh : hurLoop t rd (effResolution cr pr) cr
            (fun c => hasUncachedRange t f c cr pr)
            (k0 :: k1 :: ks2) (v :: vs) =
            (hurBucketVal t rd (effResolution cr pr)
              (fun c => hasUncachedRange t f c cr pr) v ||
             hurLoop t rd (effResolution cr pr) cr
              (fun c => hasUncachedRange t f c cr pr) (k1 :: ks2) vs) := by
          rw [hurLoop_cons, if_pos hstop]
        obtain ⟨p1, p2, p3, p4, p5, p6, p7⟩ :=
          gurStep_spec t cr pr f hsf hlsf hcr ih rd k0 k1 v acc hbkP hstop
            hsnd0 hks01.1 hch hle0 A2 hA2
        have hsnd2 : ∀ a b l, (k1 :: ks2) = a :: b :: l → cr.start < b := by
          intro a b l heq
          injection heq with h1 h2
          have hti := hks01.2
          rw [h2] at hti
          have hlb : k1 < b ∧ strictIncB (b :: l) = true := by
            simpa [strictIncB, Bool.and_eq_true] using hti
          omega
        have hle2 : ∀ k, (k1 :: ks2).head? = some k →
            lastEndLE A2 (max k (gapFloor t cr pr)) := by
          intro k hk
          have hkk : k1 = k := Option.some_inj.mp hk
          rw [← hkk]
          rcases p2 with hpa | hpb
          · rw [hpa]
            exact lastEndLE_mono hle0
              (max_le_max (le_of_lt hks01.1) (le_refl _))
          · exact lastEndLE_mono hpb
              (le_trans (min_le_left _ _) (le_max_left _ _))
        obtain ⟨q1, q2, q3, q4, q5, q6⟩ :=
          ihl (k1 :: ks2) A2 hwfb2 hks01.2 hsnd2 p1 hle2
        refine ⟨?_, ?_, ?_, ?_, ?_, ?_⟩
        · rw [hg]
          exact q1
        · intro kl hkl
          rw [List.getLast?_cons_cons] at hkl
          have hq := q2 kl hkl
          rw [hg]
          rcases hq with hqa | hqb
          · rw [hqa]
            rcases p2 with hpa | hpb
            · exact Or.inl hpa
            · refine Or.inr (lastEndLE_mono hpb ?_)
              have hk1kl : k1 ≤ kl :=
                strictIncB_head_le_getLast ks2 k1 kl hks01.2 hkl
              exact min_le_min hk1kl (le_refl _)
          · exact Or.inr hqb
        · intro x hx
          rw [hg]
          exact q3 x (p3 x hx)
        · intro x hx1 hx2
          rw [hg, pgFind_cons]
          by_cases hin : k0 ≤ x ∧ x < k1
          · rw [if_pos hin]
            have hrest : pgFind t rd (effResolution cr pr) x
                (fun c => pointGap t f c (effResolution cr pr) x)
                (k1 :: ks2) vs = false := by
              refine pgFind_false_of_lt t rd (effResolution cr pr) x _ vs
                (k1 :: ks2) hks01.2 ?_
              intro k hk
              have := Option.some_inj.mp hk
              omega
            rw [q4 x hx1 hx2, hrest, p4 x hx1 hx2 hin.1 hin.2]
            exact or_iff_left (by simp)
          · rw [if_neg hin]
            rw [q4 x hx1 hx2, p5 x (by omega) hx1 hx2]
        · intro hF
          rw [hh] at hF
          have ha : hurBucketVal t rd (effResolution cr pr)
              (fun c => hasUncachedRange t f c cr pr) v = false := by
            cases hx : hurBucketVal t rd (effResolution cr pr)
                (fun c => hasUncachedRange t f c cr pr) v
            · rfl
            · rw [hx] at hF
              exact Bool.noConfusion hF
          have hb : hurLoop t rd (effResolution cr pr) cr
              (fun c => hasUncachedRange t f c cr pr) (k1 :: ks2) vs =
              false := by
            rw [ha] at hF
            exact hF
          rw [hg, q5 hb, p6 ha]
        · intro hT
          rw [hh] at hT
          cases hv : hurBucketVal t rd (effResolution cr pr)
              (fun c => hasUncachedRange t f c cr pr) v
          · have hr : hurLoop t rd (effResolution cr pr) cr
                (fun c => hasUncachedRange t f c cr pr) (k1 :: ks2) vs =
                true := by
              rw [hv] at hT
              exact hT
            obtain ⟨x, hxO, hxn⟩ := q6 hr
            refine ⟨x, ?_, ?_⟩
            · rw [hg]
              exact hxO
            · intro hc
              exact hxn (p3 x hc)
          · obtain ⟨x, hxA, hxn⟩ := p7 hv
            refine ⟨x, ?_, hxn⟩
            rw [hg]
            exact q3 x hxA
      · have hg : gurLoop t rd (effResolution cr pr) (effRatio pr) cr
            (fun c a => getUncachedRange t f c cr pr a)
            (k0 :: k1 :: ks2) (v :: vs) acc = acc := by
          rw [gurLoop_cons, if_neg hstop]
        have hh : hurLoop t rd (effResolution cr pr) cr
            (fun c => hasUncachedRange t f c cr pr)
            (k0 :: k1 :: ks2) (v :: vs) = false := by
          rw [hurLoop_cons, if_neg hstop]
        refine ⟨?_, ?_, ?_, ?_, ?_, ?_⟩
        · rw [hg]
          exact hch
        · intro kl _
          exact Or.inl hg
        · intro x hx
          rw [hg]
          exact hx
        · intro x hx1 hx2
          rw [hg, pgFind_cons, if_neg (by omega)]
          have hrest : pgFind t rd (effResolution cr pr) x
              (fun c => pointGap t f c (effResolution cr pr) x)
              (k1 :: ks2) vs = false := by
            refine pgFind_false_of_lt t rd (effResolution cr pr) x _ vs
              (k1 :: ks2) hks01.2 ?_
            intro k hk
            have := Option.some_inj.mp hk
            omega
          rw [hrest]
          exact (or_iff_left (by simp)).symm
        · intro _
          exact hg
        · intro hT
          rw [hh] at hT
          exact Bool.noConfusion hT

/-- The node-level contract: on a well-formed node, `getUncachedRange`
satisfies `GurSpec` (by induction on the shared fuel). -/
theorem gurNode_spec (t : TreeParams) (cr : ChromRegion) (pr : QueryProps)
    (hsf : 2 ≤ t.scalingFactor) (hlsf : 1 ≤ t.leafScalingFactor)
    (hcr : cr.start < cr.«end») :
    ∀ (fuel : Nat) (n : PineNode) (acc : List ChromRegion),
      wfB fuel n = true → Chained acc →
      lastEndLE acc (max n.start (gapFloor t cr pr)) →
      GurSpec t cr pr fuel n acc := by
  intro fuel
  induction fuel with
  | zero =>
    intro n acc hwf _ _
    exact absurd hwf (fun h => Bool.noConfusion h)
  | succ f ihf =>
    intro n acc hwf hch hle
    simp only [wfB, Bool.and_eq_true, decide_eq_true_eq] at hwf
    obtain ⟨⟨⟨hhead, hlast⟩, hinc⟩, hwfb⟩ := hwf
    have hwfb2 := skipBuckets_wf (fun c => wfB f c) n.reverseDepth cr.start
      n.values n.keys hwfb
    have hinc2 := skipBuckets_strictInc cr.start n.values n.keys hinc
    have hsnd2 : ∀ a b l,
        (skipBuckets cr.start n.keys n.values).1 = a :: b :: l →
        cr.start < b := by
      intro a b l heq
      exact skipBuckets_snd_gt (fun c => wfB f c) n.reverseDepth cr.start
        n.values n.keys a b l hwfb heq
    have hle2 : ∀ k, (skipBuckets cr.start n.keys n.values).1.head? =
        some k → lastEndLE acc (max k (gapFloor t cr pr)) := by
      intro k hk
      have hge := skipBuckets_head_ge cr.start n.values n.keys n.start k
        hinc hhead hk
      exact lastEndLE_mono hle (max_le_max hge (le_refl _))
    obtain ⟨q1, q2, q3, q4, q5, q6⟩ :=
      gurLoop_spec t cr pr f hsf hlsf hcr ihf n.reverseDepth
        (skipBuckets cr.start n.keys n.values).2
        (skipBuckets cr.start n.keys n.values).1 acc
        hwfb2 hinc2 hsnd2 hch hle2
    unfold GurSpec
    rw [getUncachedRange_succ, hasUncachedRange_succ]
    refine ⟨q1, ?_, q3, ?_, q5, q6⟩
    · refine q2 n.stop ?_
      rw [skipBuckets_getLast]
      exact hlast
    · intro x hx1 hx2
      rw [pointGap_succ, pgFind_skipBuckets t n.reverseDepth
        (effResolution cr pr) x cr.start _ hx1 n.values n.keys]
      exact q4 x hx1 hx2

/-- On a well-formed node, `hasUncachedRange` over the single-point query
`[x, x+1)` computes exactly the pointwise gap predicate `pointGap`. -/
theorem hasUncachedRange_pointCR (t : TreeParams) (cr : ChromRegion)
    (pr : QueryProps) (x : Int) (hres : 1 ≤ effResolution cr pr) :
    ∀ (fuel : Nat) (n : PineNode), wfB fuel n = true →
      hasUncachedRange t fuel n (pointCR cr (effResolution cr pr) x) pr =
        pointGap t fuel n (effResolution cr pr) x := by
  have heff : effResolution (pointCR cr (effResolution cr pr) x) pr =
      effResolution cr pr :=
    effResolution_some _ pr _ rfl (by omega)
  have hcrs : (pointCR cr (effResolution cr pr) x).start = x := rfl
  have hcre : (pointCR cr (effResolution cr pr) x).«end» = x + 1 := rfl
  intro fuel
  induction fuel with
  | zero =>
    intro n _
    rfl
  | succ f ihf =>
    intro n hwf
    simp only [wfB, Bool.and_eq_true, decide_eq_true_eq] at hwf
    obtain ⟨⟨⟨hhead, hlast⟩, hinc⟩, hwfb⟩ := hwf
    rw [hasUncachedRange_succ, pointGap_succ, heff, hcrs]
    rw [pgFind_skipBuckets t n.reverseDepth (effResolution cr pr) x x _
      (le_refl x) n.values n.keys]
    have hwfb2 := skipBuckets_wf (fun c => wfB f c) n.reverseDepth x
      n.values n.keys hwfb
    have hinc2 := skipBuckets_strictInc x n.values n.keys hinc
    rcases wfBuckets_shape (fun c => wfB f c) n.reverseDepth
        (skipBuckets x n.keys n.values).1
        (skipBuckets x n.keys n.values).2 hwfb2 with
      ⟨k, hks, hvs⟩ | ⟨k0, k1, ks2, v, vs2, hks, hvs⟩
    · rw [hks, hvs]
      rfl
    · have hxk1 : x < k1 :=
        skipBuckets_snd_gt (fun c => wfB f c) n.reverseDepth x n.values
          n.keys k0 k1 ks2 hwfb hks
      rw [hks, hvs]
      rw [hks, hvs] at hwfb2
      rw [hks] at hinc2
      rw [hurLoop_cons, pgFind_cons]
      by_cases hx0 : k0 ≤ x
      · rw [if_pos (show k0 < (pointCR cr (effResolution cr pr) x).«end»
            from by rw [hcre]; omega),
          if_pos ⟨hx0, hxk1⟩]
        have hrest : hurLoop t n.reverseDepth (effResolution cr pr)
            (pointCR cr (effResolution cr pr) x)
            (fun c => hasUncachedRange t f c
              (pointCR cr (effResolution cr pr) x) pr)
            (k1 :: ks2) vs2 = false :=
          hurLoop_head_stop t n.reverseDepth (effResolution cr pr) _ _ k1
            ks2 vs2 (by rw [hcre]; omega)
        rw [hrest, Bool.or_false]
        rw [wfBuckets_cons, Bool.and_eq_true] at hwfb2
        rcases v with _ | _ | d | c
        · rfl
        · rfl
        · rfl
        · have hbk2 : (decide (n.reverseDepth = c.reverseDepth + 1) &&
              decide (c.start = k0) && decide (c.stop = k1) &&
              wfB f c) = true := hwfb2.1
          simp only [Bool.and_eq_true, decide_eq_true_eq] at hbk2
          simp only [hurBucketVal]
          rw [ihf c hbk2.2]
      · rw [if_neg (show ¬(k0 <
            (pointCR cr (effResolution cr pr) x).«end») from by
              rw [hcre]; omega),
          if_neg (by omega)]
        have hcons : k0 < k1 ∧ strictIncB (k1 :: ks2) = true := by
          simpa [strictIncB, Bool.and_eq_true] using hinc2
        rw [pgFind_false_of_lt t n.reverseDepth (effResolution cr pr) x _
          vs2 (k1 :: ks2) hcons.2 ?_]
        intro k hk
        have := Option.some_inj.mp hk
        omega

/-- C3: on a well-formed node, `hasUncachedRange` returns true iff
`getUncachedRange` returns a non-empty list; the returned list is a
start-ordered sequence of disjoint non-empty ranges; and over the queried
range it covers exactly those points at which `hasUncachedRange`,
queried independently on the single-point range at the same resolution,
reports true. -/
theorem c3_uncached_range_equivalence (t : TreeParams) (fuel : Nat)
    (n : PineNode) (cr : ChromRegion) (pr : QueryProps)
    (hsf : 2 ≤ t.scalingFactor) (hlsf : 1 ≤ t.leafScalingFactor)
    (hwf : wfB fuel n = true) (hcr : cr.start < cr.«end»)
    (hres : 1 ≤ effResolution cr pr) :
    (hasUncachedRange t fuel n cr pr = true ↔
      getUncachedRange t fuel n cr pr [] ≠ []) ∧
    Chained (getUncachedRange t fuel n cr pr []) ∧
    (∀ x, cr.start ≤ x → x < cr.«end» →
      (covers (getUncachedRange t fuel n cr pr []) x ↔
        hasUncachedRange t fuel n (pointCR cr (effResolution cr pr) x) pr =
          true)) := by
  have hchn : Chained ([] : List ChromRegion) :=
    ⟨fun e he => absurd he (List.not_mem_nil e), List.chain'_nil⟩
  have hlen : lastEndLE ([] : List ChromRegion)
      (max n.start (gapFloor t cr pr)) := by
    intro e he
    simp at he
  have spec := gurNode_spec t cr pr hsf hlsf hcr fuel n [] hwf hchn hlen
  unfold GurSpec at spec
  obtain ⟨s1, s2, s3, s4, s5, s6⟩ := spec
  refine ⟨?_, s1, ?_⟩
  · constructor
    · intro h
      obtain ⟨x, hcov, -⟩ := s6 h
      intro h0
      rw [h0] at hcov
      exact covers_nil x hcov
    · intro hne
      cases hb : hasUncachedRange t fuel n cr pr
      · exact absurd (s5 hb) hne
      · rfl
  · intro x hx1 hx2
    rw [hasUncachedRange_pointCR t cr pr x hres fuel n hwf]
    rw [s4 x hx1 hx2]
    constructor
    · rintro (h | h)
      · exact absurd h (covers_nil x)
      · exact h
    · intro h
      exact Or.inr h

/-- C3 witness: the two-level tree `c9Parent` (an `Unknown` bucket beneath
a resolution-100 child) with the query `[0, 100)` at resolution 100
satisfies every hypothesis of the refinement theorem. -/
theorem c3_uncached_range_equivalence_witness :
    (2 ≤ scnTree.scalingFactor ∧ 1 ≤ scnTree.leafScalingFactor ∧
     wfB 2 c9Parent = true ∧ c9Query.start < c9Query.«end» ∧
     1 ≤ effResolution c9Query ⟨none, none⟩) ∧
    ((hasUncachedRange scnTree 2 c9Parent c9Query ⟨none, none⟩ = true ↔
       getUncachedRange scnTree 2 c9Parent c9Query ⟨none, none⟩ [] ≠ []) ∧
     Chained (getUncachedRange scnTree 2 c9Parent c9Query ⟨none, none⟩ []) ∧
     (∀ x, c9Query.start ≤ x → x < c9Query.«end» →
       (covers
           (getUncachedRange scnTree 2 c9Parent c9Query ⟨none, none⟩ []) x ↔
         hasUncachedRange scnTree 2 c9Parent
           (pointCR c9Query (effResolution c9Query ⟨none, none⟩) x)
           ⟨none, none⟩ = true))) :=
  ⟨⟨by decide, by decide, by decide, by decide, by decide⟩,
    c3_uncached_range_equivalence scnTree 2 c9Parent c9Query ⟨none, none⟩
      (by decide) (by decide) (by decide) (by decide) (by decide)⟩

end PineTree
